import Mathlib

/- Verification development for a regex-to-automaton compiler pipeline.
   The Python sources are embedded shallowly: dictionaries become association
   lists (insertion-ordered, unique keys), Python sets become lists used up to
   membership, and fallible operations return Option.  Worklist loops that the
   source runs until exhaustion take an explicit fuel argument so that every
   definition is structurally recursive and kernel-evaluable; wrappers
   instantiate the fuel with a bound large enough to drain the worklist
   (proved where a claim needs it). -/

namespace Proyecto

/- ## Small utilities (Python str(int), ",".join, string comparison) -/

/-- Character for a decimal digit, mirroring Python's rendering of int digits. -/
def digitChar (n : Nat) : Char := Char.ofNat (48 + n)

/-- Accumulator loop producing the decimal digits of `n`, most significant
first.  The fuel only bounds the digit count; `natStr` passes enough. -/
def natStrGo : Nat → Nat → List Char → List Char
  | 0, _, acc => acc
  | fuel + 1, n, acc =>
    if n < 10 then digitChar n :: acc
    else natStrGo fuel (n / 10) (digitChar (n % 10) :: acc)

/-- Decimal rendering of a natural number, as Python's `str` on a nonnegative
int. -/
def natStr (n : Nat) : String := ⟨natStrGo (n + 1) n []⟩

/-- Value of a list of decimal digit characters (proof helper: left inverse of
`natStr`). -/
def digitsVal (l : List Char) : Nat := l.foldl (fun a c => 10 * a + (c.toNat - 48)) 0

/-- Python `",".join(strs)`. -/
def joinComma : List String → String
  | [] => ""
  | [s] => s
  | s :: rest => s ++ "," ++ joinComma rest

/-- Code-point comparison of character lists, as Python compares strings. -/
def charsLt : List Char → List Char → Bool
  | [], [] => false
  | [], _ :: _ => true
  | _ :: _, [] => false
  | a :: as, b :: bs =>
    if a.toNat < b.toNat then true
    else if b.toNat < a.toNat then false
    else charsLt as bs

/-- Code-point `≤` on strings (Python string comparison). -/
def strLe (a b : String) : Bool := ! charsLt b.data a.data

/-- Insertion of an element into a list sorted by a boolean comparator. -/
def insSorted (le : α → α → Bool) (a : α) : List α → List α
  | [] => [a]
  | b :: rest => if le a b then a :: b :: rest else b :: insSorted le a rest

/-- Insertion sort by a boolean comparator (used where the source calls
Python's `sorted` on strings or pairs). -/
def insSortBy (le : α → α → Bool) : List α → List α
  | [] => []
  | a :: rest => insSorted le a (insSortBy le rest)

/- ## src/parsing/preprocessor.py -/

/-- Number of consecutive backslashes at the end of `l`; this is what
`is_escaped` in `expand_plus_question` computes for the position right after
the characters `l`. -/
def tbOf (l : List Char) : Nat := (l.reverse.takeWhile (fun c => c = '\\')).length

/-- The inner scanning loop of the parenthesized-group branch of
`expand_plus_question`: consumes characters after an unescaped `(` while the
nesting depth stays positive.  Returns the consumed characters (including the
matching close parenthesis, when reached) and the remaining input.  `tb` is the
count of consecutive backslashes immediately before the current position. -/
def scanGroup : List Char → Nat → Nat → List Char × List Char
  | [], _, _ => ([], [])
  | c :: rest, depth, tb =>
    if depth = 0 then ([], c :: rest)
    else
      let tb' := if c = '\\' then tb + 1 else 0
      let depth' := if c = '(' ∧ tb % 2 = 0 then depth + 1
                    else if c = ')' ∧ tb % 2 = 0 then depth - 1
                    else depth
      let p := scanGroup rest depth' tb'
      (c :: p.1, p.2)

/-- Main loop of `expand_plus_question` (src/parsing/preprocessor.py).  Walks
the expression extracting one atomic token per step (escape pair, recursively
desugared parenthesized group, or single literal), then checks for an
immediately following unescaped `+` or `?`.  `tb` tracks the number of
consecutive backslashes immediately before the current position, which is
exactly what the source's `is_escaped` recomputes by scanning backwards.  The
fuel dominates the input length; every recursive call is on a strictly shorter
list, so one unit per step suffices. -/
def expandGo : Nat → List Char → Nat → List Char
  | 0, _, _ => []
  | _ + 1, [], _ => []
  | fuel + 1, '\\' :: d :: rest2, tb =>
    -- escape-pair token `\d`
    let token := ['\\', d]
    let tb' := if d = '\\' then tb + 2 else 0
    (match rest2 with
     | op :: rem2 =>
       if (op = '+' ∨ op = '?') ∧ tb' % 2 = 0 then
         if op = '+' then token ++ token ++ '*' :: expandGo fuel rem2 0
         else '(' :: (token ++ '|' :: 'ε' :: ')' :: expandGo fuel rem2 0)
       else token ++ expandGo fuel rest2 tb'
     | [] => token)
  | fuel + 1, c :: rest, tb =>
    if c = '(' ∧ tb % 2 = 0 then
      -- parenthesized group, recursively desugared
      let p := scanGroup rest 1 0
      let token := '(' :: (expandGo fuel p.1.dropLast 0 ++ [')'])
      let tb' := tbOf ('(' :: p.1)
      (match p.2 with
       | op :: rem2 =>
         if (op = '+' ∨ op = '?') ∧ tb' % 2 = 0 then
           if op = '+' then token ++ token ++ '*' :: expandGo fuel rem2 0
           else '(' :: (token ++ '|' :: 'ε' :: ')' :: expandGo fuel rem2 0)
         else token ++ expandGo fuel p.2 tb'
       | [] => token)
    else
      -- single literal token
      let token := [c]
      let tb' := if c = '\\' then tb + 1 else 0
      (match rest with
       | op :: rem2 =>
         if (op = '+' ∨ op = '?') ∧ tb' % 2 = 0 then
           if op = '+' then token ++ token ++ '*' :: expandGo fuel rem2 0
           else '(' :: (token ++ '|' :: 'ε' :: ')' :: expandGo fuel rem2 0)
         else token ++ expandGo fuel rest tb'
       | [] => token)

/-- `expand_plus_question` from src/parsing/preprocessor.py. -/
def expand_plus_question (expr : String) : String :=
  ⟨expandGo (expr.data.length + 1) expr.data 0⟩

/-- The token-splitting first loop of `insert_concatenation`: escape pairs
count as one token, every other character is its own token. -/
def splitTokens : List Char → List String
  | [] => []
  | ['\\'] => [String.singleton '\\']
  | '\\' :: d :: rest => String.mk ['\\', d] :: splitTokens rest
  | c :: rest => String.singleton c :: splitTokens rest

/-- The second loop of `insert_concatenation`: inserts an explicit `.` between
the previous token and the current one unless excluded. -/
def insertConcatGo (prev : String) : List String → List String
  | [] => []
  | tok :: rest =>
    (if ¬ (prev = "|" ∨ prev = "(") ∧
        ¬ (tok = "|" ∨ tok = ")" ∨ tok = "*" ∨ tok = "+" ∨ tok = "?")
     then ["."] else [])
      ++ tok :: insertConcatGo tok rest

/-- `insert_concatenation` from src/parsing/preprocessor.py. -/
def insert_concatenation (expr : String) : List String :=
  match splitTokens expr.data with
  | [] => []
  | t :: ts => t :: insertConcatGo t ts

/- ## src/parsing/shunting_yard.py -/

/-- Operator precedence table (`precedence` in src/parsing/shunting_yard.py). -/
def precedence (op : String) : Nat :=
  if op = "*" ∨ op = "+" ∨ op = "?" then 3
  else if op = "." then 2
  else if op = "|" then 1
  else 0

/-- Operand test from the first branch of the shunting-yard loop: escape pairs,
single alphanumeric/underscore/bracket characters, and the epsilon symbol.
Python's Unicode-aware `str.isalnum` is modelled by `Char.isAlphanum`; every
symbol this pipeline feeds through the converter is ASCII or `ε`, and `ε` is
accepted by the explicit list in both versions. -/
def isOperandTok (t : String) : Bool :=
  match t.data with
  | '\\' :: _ => true
  | [c] =>
    c.isAlphanum || c = '_' || c = '[' || c = ']' || c = '\x7b' || c = '\x7d' ||
      c = 'ε'
  | _ => false

/-- One step of the shunting-yard loop on state `(output, stack)`; the head of
`stack` is its top (the end of the Python list). -/
def syStep (st : List String × List String) (tok : String) : List String × List String :=
  if isOperandTok tok then (st.1 ++ [tok], st.2)
  else if tok = "(" then (st.1, tok :: st.2)
  else if tok = ")" then
    -- pop to the output until a `(` is found; an unmatched `)` is ignored
    let popped := st.2.takeWhile (fun op => decide (op ≠ "("))
    let rest := st.2.dropWhile (fun op => decide (op ≠ "("))
    (st.1 ++ popped, match rest with
                     | "(" :: s2 => s2
                     | r => r)
  else if tok = "|" ∨ tok = "." ∨ tok = "*" ∨ tok = "+" ∨ tok = "?" then
    -- pop operators with precedence ≥ the token's; a `(` has precedence 0 and
    -- never passes the test (the source's break on `(` is unreachable)
    let popped := st.2.takeWhile (fun op => decide (precedence tok ≤ precedence op))
    (st.1 ++ popped,
     tok :: st.2.dropWhile (fun op => decide (precedence tok ≤ precedence op)))
  else st  -- unrecognized tokens are silently ignored

/-- `shunting_yard` from src/parsing/shunting_yard.py, with `collect_steps`
elided: the returned value is the `output` component of the source's result
(the `pasos` trace is empty in that mode and never consumed by the pipeline). -/
def shunting_yard (tokens : List String) : List String :=
  let st := tokens.foldl syStep ([], [])
  st.1 ++ st.2

/- ## src/parsing/ast_builder.py -/

/-- `RegexNode` from src/parsing/ast_builder.py: a value plus optional left and
right children. -/
inductive RegexNode where
  | mk (value : String) (left : Option RegexNode) (right : Option RegexNode)

/-- The value stored at a node. -/
def RegexNode.value : RegexNode → String
  | .mk v _ _ => v

/-- The left child of a node. -/
def RegexNode.left : RegexNode → Option RegexNode
  | .mk _ l _ => l

/-- The right child of a node. -/
def RegexNode.right : RegexNode → Option RegexNode
  | .mk _ _ r => r

/-- One step of the `build_syntax_tree` stack loop; the head of the stack is
its top.  `none` models the IndexError Python raises when popping an empty
list (stack underflow). -/
def bstStep (st : Option (List RegexNode)) (tok : String) : Option (List RegexNode) :=
  match st with
  | none => none
  | some stk =>
    if tok = "*" ∨ tok = "+" ∨ tok = "?" then
      match stk with
      | child :: rest => some (RegexNode.mk tok (some child) none :: rest)
      | [] => none
    else if tok = "." ∨ tok = "|" then
      match stk with
      | r :: l :: rest => some (RegexNode.mk tok (some l) (some r) :: rest)
      | _ => none
    else
      some (RegexNode.mk tok none none :: stk)

/-- The stack left after feeding all postfix tokens through the
`build_syntax_tree` loop (`none` on stack underflow). -/
def buildStack (tokens : List String) : Option (List RegexNode) :=
  tokens.foldl bstStep (some [])

/-- `build_syntax_tree` from src/parsing/ast_builder.py: the final
`stack.pop()` returns the top of the remaining stack (failing only when the
stack is empty), with no check that the stack holds exactly one tree. -/
def buildSyntaxTree (tokens : List String) : Option RegexNode :=
  (buildStack tokens).bind List.head?

/- ## src/models/nfa.py -/

/-- Transition dictionary of an NFA: state id to ordered list of
(symbol, destination) pairs.  Association list with unique keys, mirroring the
Python dict. -/
abbrev Trans := List (Nat × List (String × Nat))

/-- `NFA` from src/models/nfa.py. -/
structure NFA where
  start : Nat
  accept : Nat
  transitions : Trans
deriving DecidableEq

/-- Python `transitions.get(s, [])`. -/
def lookupD (t : Trans) (s : Nat) : List (String × Nat) :=
  match t.find? (fun p => p.1 == s) with
  | some p => p.2
  | none => []

/-- Python `t.setdefault(s, []).extend(es)`: appends edges under key `s`,
creating the key at the end of the dict when absent. -/
def addEdges (t : Trans) (s : Nat) (es : List (String × Nat)) : Trans :=
  if t.any (fun p => p.1 == s) then
    t.map (fun p => if p.1 == s then (p.1, p.2 ++ es) else p)
  else t ++ [(s, es)]

/-- `_merge_trans` from src/algorithms/thompson.py. -/
def mergeTrans (ta tb : Trans) : Trans :=
  tb.foldl (fun acc p => addEdges acc p.1 p.2) ta

/-- All destination states appearing in a transition dictionary. -/
def allTargets (T : Trans) : List Nat := (T.map (fun p => p.2.map Prod.snd)).flatten

/-- All (source, symbol, destination) triples of a transition dictionary. -/
def triplesOf (T : Trans) : List (Nat × String × Nat) :=
  (T.map (fun p => p.2.map (fun e => (p.1, e.1, e.2)))).flatten

/-- `_collect_states` from src/utils/validation.py: keys plus destinations
(a set in Python; here a deduplicated list). -/
def collectStatesL (T : Trans) : List Nat :=
  (T.map Prod.fst ++ allTargets T).dedup

/- ## src/algorithms/thompson.py -/

/-- `lit_symbol` inside `thompson_from_ast`: `\X` becomes `X`, `ε` stays. -/
def litSymbol (tok : String) : String :=
  if tok = "ε" then "ε"
  else match tok.data with
    | ['\\', c] => String.singleton c
    | _ => tok

/-- Fuel bound for the recursive `build` of Thompson's construction.  The `+`
case recurses on a rewritten tree that mentions its child three times, hence
the factor 3. -/
def sizeRN : RegexNode → Nat
  | .mk _ none none => 1
  | .mk v (some l) none => if v = "+" then 3 * sizeRN l + 5 else sizeRN l + 2
  | .mk v (some l) (some r) =>
    if v = "+" then 3 * sizeRN l + sizeRN r + 5 else sizeRN l + sizeRN r + 2
  | .mk _ none (some r) => sizeRN r + 2

/-- The recursive `build` inside `thompson_from_ast`
(src/algorithms/thompson.py) with the mutable state counter threaded
explicitly: `buildT fuel node c` returns the built fragment and the counter
value after it.  `none` models the `UnsupportedOperator` raise and the crashes
on missing children; the fuel (one unit per call, dominated by `sizeRN`)
never runs out when called through `thompson_from_ast`. -/
def buildT : Nat → RegexNode → Nat → Option (NFA × Nat)
  | 0, _, _ => none
  | fuel + 1, RegexNode.mk v l r, c =>
    match l, r with
    | none, none =>
      -- leaf: two fresh states and a single labelled transition
      some (⟨c + 1, c + 2, [(c + 1, [(litSymbol v, c + 2)])]⟩, c + 2)
    | _, _ =>
      if v = "." then
        match l, r with
        | some ln, some rn =>
          match buildT fuel ln c with
          | none => none
          | some (A, c1) =>
            match buildT fuel rn c1 with
            | none => none
            | some (B, c2) =>
              some (⟨A.start, B.accept,
                     addEdges (mergeTrans A.transitions B.transitions)
                       A.accept [("ε", B.start)]⟩, c2)
        | _, _ => none
      else if v = "|" then
        match l, r with
        | some ln, some rn =>
          match buildT fuel ln c with
          | none => none
          | some (A, c1) =>
            match buildT fuel rn c1 with
            | none => none
            | some (B, c2) =>
              let s := c2 + 1
              let t := c2 + 2
              let tr0 := mergeTrans (mergeTrans [] A.transitions) B.transitions
              let tr1 := addEdges tr0 s [("ε", A.start), ("ε", B.start)]
              let tr2 := addEdges tr1 A.accept [("ε", t)]
              some (⟨s, t, addEdges tr2 B.accept [("ε", t)]⟩, c2 + 2)
        | _, _ => none
      else if v = "*" then
        match l with
        | some ln =>
          match buildT fuel ln c with
          | none => none
          | some (A, c1) =>
            let s := c1 + 1
            let t := c1 + 2
            let tr0 := mergeTrans [] A.transitions
            let tr1 := addEdges tr0 s [("ε", A.start), ("ε", t)]
            some (⟨s, t, addEdges tr1 A.accept [("ε", A.start), ("ε", t)]⟩, c1 + 2)
        | none => none
      else if v = "+" then
        match l with
        | some ln =>
          -- the source builds (and discards) the child once, consuming ids,
          -- then compiles `left . left*`
          match buildT fuel ln c with
          | none => none
          | some (_, c1) =>
            buildT fuel (RegexNode.mk "." (some ln)
              (some (RegexNode.mk "*" (some ln) none))) c1
        | none => none
      else if v = "?" then
        match l with
        | some ln =>
          match buildT fuel ln c with
          | none => none
          | some (A, c1) =>
            let s := c1 + 1
            let t := c1 + 2
            let tr0 := mergeTrans [] A.transitions
            let tr1 := addEdges tr0 s [("ε", A.start), ("ε", t)]
            some (⟨s, t, addEdges tr1 A.accept [("ε", t)]⟩, c1 + 2)
        | none => none
      else none  -- raise ValueError: unsupported operator

/-- `thompson_from_ast` from src/algorithms/thompson.py (counter starts at 0,
so the first allocated id is 1). -/
def thompson_from_ast (root : RegexNode) : Option NFA :=
  (buildT (sizeRN root) root 0).map Prod.fst

/- ## Generic worklist traversal
   (shared shape of the closure/BFS loops in simulation.py, dfa_operations.py,
   validation.py: pop a node, push its not-yet-visited successors, marking
   them visited as they are pushed).  Returns the visitation order and the
   visited set.  The source loops run until the worklist empties; the fuel is
   instantiated by each wrapper with a bound proved sufficient where a claim
   needs the loop drained.  The closure loops in the source pop from the end
   of the list and the BFS loops from the front; the resulting visited SET is
   the same, and only `renumber_nfa` consumes the order, which its source
   computes with the front-popping variant modelled here. -/

/-- Push every not-yet-seen element, appending it to both the queue and the
seen set (Python's `visited.add(t); stack.append(t)` pattern). -/
def pushFresh [DecidableEq α] : List α → List α × List α → List α × List α
  | [], st => st
  | t :: ts, (q, seen) =>
    if t ∈ seen then pushFresh ts (q, seen)
    else pushFresh ts (q ++ [t], seen ++ [t])

/-- The worklist loop: pop the head, push its fresh successors. -/
def reachLoop [DecidableEq α] (succ : α → List α) :
    Nat → List α → List α → List α → List α × List α
  | 0, _, seen, order => (order, seen)
  | _ + 1, [], seen, order => (order, seen)
  | fuel + 1, s :: rest, seen, order =>
    let st := pushFresh (succ s) (rest, seen)
    reachLoop succ fuel st.1 st.2 (order ++ [s])

/-- The elements `pushFresh` actually appends: those of `ts` not yet seen,
first occurrences only. -/
def freshOf [DecidableEq α] : List α → List α → List α
  | [], _ => []
  | t :: ts, seen => if t ∈ seen then freshOf ts seen else t :: freshOf ts (seen ++ [t])

/- ## src/algorithms/simulation.py -/

/-- Epsilon successors of a state. -/
def epsSucc (T : Trans) (s : Nat) : List Nat :=
  ((lookupD T s).filter (fun e => e.1 == "ε")).map Prod.snd

/-- `epsilon_closure` from src/algorithms/simulation.py: fixed-point expansion
along epsilon edges from a set of states. -/
def epsilon_closure (states : List Nat) (T : Trans) : List Nat :=
  (reachLoop (epsSucc T) (2 * (allTargets T).length + states.length + 1)
    states states.dedup []).2

/-- `move` from src/algorithms/simulation.py: destinations reachable from
`states` on exactly `sym`. -/
def nfaMove (states : List Nat) (sym : String) (T : Trans) : List Nat :=
  (states.map (fun s => ((lookupD T s).filter (fun e => e.1 == sym)).map Prod.snd)).flatten

/-- The per-character loop of `simulate_nfa`, with the early stop when the
current set becomes empty. -/
def simNfaGo (T : Trans) : List Char → List Nat → List Nat
  | [], cur => cur
  | ch :: rest, cur =>
    let nxt := epsilon_closure (nfaMove cur (String.singleton ch) T) T
    if nxt = [] then nxt else simNfaGo T rest nxt

/-- `simulate_nfa` from src/algorithms/simulation.py: the reserved word `ε` is
treated as the empty string, and the final state set is epsilon-closed once
more before testing for the accept state. -/
def simulate_nfa (nfa : NFA) (w : String) : Bool :=
  let w' := if w = "ε" then "" else w
  let cur0 := epsilon_closure [nfa.start] nfa.transitions
  let curF := simNfaGo nfa.transitions w'.data cur0
  decide (nfa.accept ∈ epsilon_closure curF nfa.transitions)

/- ## src/models/dfa.py -/

/-- `DFA` from src/models/dfa.py.  The Python object starts with `start = None`
and empty sets; the empty string stands in for `None` (no constructed state is
ever labelled by the empty string). -/
structure DFA where
  states : List String
  alphabet : List String
  transitions : List (String × List (String × String))
  start : String
  acceptStates : List String
deriving DecidableEq

/-- The freshly-constructed `DFA()`. -/
def emptyDFA : DFA := ⟨[], [], [], "", []⟩

/-- Python `set.add` on a set modelled as an insertion-ordered list. -/
def addToSetS (l : List String) (x : String) : List String :=
  if x ∈ l then l else l ++ [x]

/-- Lookup in the outer transition dict of a DFA, defaulting to empty. -/
def lookupS (t : List (String × List (String × String))) (s : String) :
    List (String × String) :=
  match t.find? (fun p => p.1 == s) with
  | some p => p.2
  | none => []

/-- Python `transitions[from_state][symbol] = to_state` on the inner dict. -/
def setInner (lst : List (String × String)) (sym v : String) : List (String × String) :=
  if lst.any (fun e => e.1 == sym) then
    lst.map (fun e => if e.1 == sym then (e.1, v) else e)
  else lst ++ [(sym, v)]

/-- `DFA.add_state` from src/models/dfa.py. -/
def DFA.add_state (d : DFA) (s : String) : DFA :=
  { d with
    states := addToSetS d.states s,
    transitions :=
      if d.transitions.any (fun p => p.1 == s) then d.transitions
      else d.transitions ++ [(s, [])] }

/-- `DFA.add_transition` from src/models/dfa.py. -/
def DFA.add_transition (d : DFA) (src sym dst : String) : DFA :=
  { d with
    states := addToSetS (addToSetS d.states src) dst,
    alphabet := addToSetS d.alphabet sym,
    transitions :=
      if d.transitions.any (fun p => p.1 == src) then
        d.transitions.map (fun p => if p.1 == src then (p.1, setInner p.2 sym dst) else p)
      else d.transitions ++ [(src, [(sym, dst)])] }

/-- `DFA.get_transition` from src/models/dfa.py. -/
def DFA.get_transition (d : DFA) (s sym : String) : Option String :=
  ((lookupS d.transitions s).find? (fun e => e.1 == sym)).map Prod.snd

/- ## src/algorithms/dfa_operations.py -/

/-- `epsilon_closure_dfa` from src/algorithms/dfa_operations.py; the loop is
character-for-character the one in simulation.py, so it is shared here. -/
def epsilon_closure_dfa (states : List Nat) (nfa : NFA) : List Nat :=
  epsilon_closure states nfa.transitions

/-- `move_dfa` from src/algorithms/dfa_operations.py (same loop as `move` in
simulation.py). -/
def move_dfa (states : List Nat) (sym : String) (nfa : NFA) : List Nat :=
  nfaMove states sym nfa.transitions

/-- Canonical form of a Python set of ints for use as a `frozenset` key and for
`sorted(states)`: duplicates removed, ascending order. -/
def canonSet (l : List Nat) : List Nat := List.insertionSort (· ≤ ·) l.dedup

/-- `format_state_set` from src/algorithms/dfa_operations.py: `∅` for the
empty set, the bare number for a singleton, and a braced comma-joined sorted
list otherwise. -/
def format_state_set (states : List Nat) : String :=
  match canonSet states with
  | [] => "∅"
  | [s] => natStr s
  | l => "\x7b" ++ joinComma (l.map natStr) ++ "\x7d"

/-- Alphabet extraction at the top of `subset_construction`: every non-epsilon
symbol mentioned in the NFA's transitions. -/
def nfaAlphabet (nfa : NFA) : List String :=
  (((nfa.transitions.map (fun p => p.2.map Prod.fst)).flatten).filter
    (fun s => s != "ε")).dedup

/-- Loop state of `subset_construction`: the DFA under construction, the
`processed` map from canonical NFA-state sets to DFA labels, and the worklist
of discovered-but-unexpanded DFA states. -/
structure SubsetState where
  dfa : DFA
  processed : List (List Nat × String)
  queue : List (String × List Nat)

/-- Body of the per-symbol loop of `subset_construction`: skip when the move
set is empty; otherwise close it, dedupe on the underlying set, allocate and
enqueue on first sight (marking accepting when the set holds the NFA accept
state), and record the transition. -/
def subsetSymStep (nfa : NFA) (cur : String × List Nat) (acc : SubsetState)
    (sym : String) : SubsetState :=
  let moved := move_dfa cur.2 sym nfa
  if moved = [] then acc
  else
    let nxt := epsilon_closure_dfa moved nfa
    let key := canonSet nxt
    match acc.processed.find? (fun p => p.1 == key) with
    | some p => { acc with dfa := acc.dfa.add_transition cur.1 sym p.2 }
    | none =>
      let name := format_state_set nxt
      let d1 := acc.dfa.add_state name
      let d2 := if nfa.accept ∈ nxt then
          { d1 with acceptStates := addToSetS d1.acceptStates name }
        else d1
      { dfa := DFA.add_transition d2 cur.1 sym name,
        processed := acc.processed ++ [(key, name)],
        queue := acc.queue ++ [(name, nxt)] }

/-- The BFS worklist loop of `subset_construction`. -/
def subsetLoop (nfa : NFA) (alphabet : List String) : Nat → SubsetState → SubsetState
  | 0, st => st
  | fuel + 1, st =>
    match st.queue with
    | [] => st
    | cur :: rest =>
      subsetLoop nfa alphabet fuel
        (alphabet.foldl (subsetSymStep nfa cur) { st with queue := rest })

/-- `subset_construction` from src/algorithms/dfa_operations.py, returning the
full final loop state.  The fuel exceeds the number of distinct state subsets,
so the worklist always drains. -/
def subsetRun (nfa : NFA) : SubsetState :=
  let alphabet := nfaAlphabet nfa
  let startClosure := epsilon_closure_dfa [nfa.start] nfa
  let startName := format_state_set startClosure
  let d0 := DFA.add_state { emptyDFA with alphabet := alphabet, start := startName } startName
  let d1 := if nfa.accept ∈ startClosure then
      { d0 with acceptStates := addToSetS d0.acceptStates startName }
    else d0
  subsetLoop nfa alphabet (2 ^ ((collectStatesL nfa.transitions).length + 1))
    { dfa := d1, processed := [(canonSet startClosure, startName)],
      queue := [(startName, startClosure)] }

/-- The DFA produced by `subset_construction`. -/
def subset_construction (nfa : NFA) : DFA := (subsetRun nfa).dfa

/-- All destinations in a DFA transition dict. -/
def allTargetsD (t : List (String × List (String × String))) : List String :=
  (t.map (fun p => p.2.map Prod.snd)).flatten

/-- `remove_unreachable_states` from src/algorithms/dfa_operations.py. -/
def remove_unreachable_states (dfa : DFA) : DFA :=
  let reachable := (reachLoop (fun s => (lookupS dfa.transitions s).map Prod.snd)
      (2 * (allTargetsD dfa.transitions).length + 1) [dfa.start] [dfa.start] []).2
  let base : DFA :=
    { states := reachable, alphabet := dfa.alphabet, transitions := [],
      start := dfa.start,
      acceptStates := dfa.acceptStates.filter (fun s => s ∈ reachable) }
  reachable.foldl (fun acc s =>
    (lookupS dfa.transitions s).foldl (fun acc2 e =>
      if e.2 ∈ reachable then DFA.add_transition acc2 s e.1 e.2 else acc2) acc) base

/-- `find_partition_containing` from src/algorithms/dfa_operations.py: index of
the first block holding the state, `-1` for `None` or a state in no block. -/
def find_partition_containing (state : Option String) (partitions : List (List String)) : Int :=
  match state with
  | none => -1
  | some st =>
    match partitions.findIdx? (fun p => decide (st ∈ p)) with
    | some i => Int.ofNat i
    | none => -1

/-- The transition signature of a state over the sorted alphabet, used by
`refine_partition`. -/
def sigOf (dfa : DFA) (partitions : List (List String)) (st : String) : List Int :=
  (insSortBy strLe dfa.alphabet).map (fun sym =>
    find_partition_containing (DFA.get_transition dfa st sym) partitions)

/-- Grouping step of `refine_partition` (Python's `defaultdict(set)` keyed by
signature, in first-seen order). -/
def groupInsert (key : List Int) (st : String) :
    List (List Int × List String) → List (List Int × List String)
  | [] => [(key, [st])]
  | g :: gs => if g.1 == key then (g.1, g.2 ++ [st]) :: gs else g :: groupInsert key st gs

/-- `refine_partition` from src/algorithms/dfa_operations.py. -/
def refine_partition (partition : List String) (allPartitions : List (List String))
    (dfa : DFA) : List (List String) :=
  if partition.length ≤ 1 then [partition]
  else
    (partition.foldl (fun groups st => groupInsert (sigOf dfa allPartitions st) st groups)
      []).map Prod.snd

/-- The refinement loop of `minimize_dfa`: one full pass refines every block;
the loop repeats while some block split and the pass counter has not passed
10, and returns the final partition list together with the number of executed
passes.  The fuel 12 used by `minimize_dfa` cannot run out, since the counter
check stops the loop after at most 11 passes. -/
def refineLoopGo (dfa : DFA) : Nat → Nat → List (List String) → List (List String) × Nat
  | 0, iteration, partitions => (partitions, iteration)
  | fuel + 1, iteration, partitions =>
    let refined := partitions.map (fun p => refine_partition p partitions dfa)
    let changed := refined.any (fun r => decide (1 < r.length))
    let newPartitions := refined.flatten
    let iter2 := iteration + 1
    if changed ∧ iter2 ≤ 10 then refineLoopGo dfa fuel iter2 newPartitions
    else (newPartitions, iter2)

/-- `build_minimized_dfa` from src/algorithms/dfa_operations.py.  `none` models
the crashes Python would hit when a partition misses a needed state
(`KeyError` on `state_mapping` / `partition_to_state`) or is empty
(`StopIteration` from `next(iter(...))`).  Python's `state_mapping` is
last-write-wins over the partitions; the blocks of a partition are disjoint,
for which first-match lookup coincides. -/
def build_minimized_dfa (original : DFA) (partitions : List (List String)) : Option DFA :=
  let m0 : DFA := { emptyDFA with alphabet := original.alphabet }
  let m1 := partitions.enum.foldl (fun acc p => DFA.add_state acc ("q" ++ natStr p.1)) m0
  match partitions.findIdx? (fun part => decide (original.start ∈ part)) with
  | none => none
  | some si =>
    let m2 := { m1 with start := "q" ++ natStr si }
    let m3 := partitions.enum.foldl (fun acc p =>
        if p.2.any (fun s => s ∈ original.acceptStates) then
          { acc with acceptStates := addToSetS acc.acceptStates ("q" ++ natStr p.1) }
        else acc) m2
    partitions.enum.foldl (fun (accO : Option DFA) p =>
      match accO with
      | none => none
      | some acc =>
        match p.2 with
        | [] => none
        | rep :: _ =>
          original.alphabet.foldl (fun acc2O sym =>
            match acc2O with
            | none => none
            | some acc2 =>
              match DFA.get_transition original rep sym with
              | none => some acc2
              | some nxtOld =>
                match partitions.findIdx? (fun part => decide (nxtOld ∈ part)) with
                | none => none
                | some ti =>
                  some (DFA.add_transition acc2 ("q" ++ natStr p.1) sym ("q" ++ natStr ti)))
            (some acc))
      (some m3)

/-- `minimize_dfa` from src/algorithms/dfa_operations.py. -/
def minimize_dfa (dfa : DFA) : Option DFA :=
  if dfa.states = [] then some dfa
  else
    let reachableDfa := remove_unreachable_states dfa
    if reachableDfa.states.length ≤ 1 then some reachableDfa
    else
      let acceptStates := reachableDfa.acceptStates
      let nonAccept := reachableDfa.states.filter (fun s => decide (s ∉ acceptStates))
      let partitions0 := (if nonAccept = [] then [] else [nonAccept])
        ++ (if acceptStates = [] then [] else [acceptStates])
      build_minimized_dfa reachableDfa (refineLoopGo reachableDfa 12 0 partitions0).1

/-- The number of refinement passes `minimize_dfa` executes on an input (0 when
the refinement loop is not entered at all). -/
def minimizePasses (dfa : DFA) : Nat :=
  if dfa.states = [] then 0
  else
    let reachableDfa := remove_unreachable_states dfa
    if reachableDfa.states.length ≤ 1 then 0
    else
      let acceptStates := reachableDfa.acceptStates
      let nonAccept := reachableDfa.states.filter (fun s => decide (s ∉ acceptStates))
      let partitions0 := (if nonAccept = [] then [] else [nonAccept])
        ++ (if acceptStates = [] then [] else [acceptStates])
      (refineLoopGo reachableDfa 12 0 partitions0).2

/-- The per-character walk of `simulate_dfa`, `none` on the first undefined
transition. -/
def simDfaGo (d : DFA) : List Char → String → Option String
  | [], cur => some cur
  | ch :: rest, cur =>
    match DFA.get_transition d cur (String.singleton ch) with
    | none => none
    | some nxt => simDfaGo d rest nxt

/-- `simulate_dfa` from src/algorithms/simulation.py.  Note: unlike
`simulate_nfa`, the word `ε` is NOT replaced by the empty string; the walk
looks for a transition on the literal character `ε`. -/
def simulate_dfa (d : DFA) (word : String) : Bool :=
  if d.states = [] then false
  else
    match simDfaGo d word.data d.start with
    | none => false
    | some final => decide (final ∈ d.acceptStates)

/- ## src/utils/validation.py -/

/-- `validate_nfa` from src/utils/validation.py.  Issue strings carry the
ids involved; the surrounding prose is abbreviated where Python interpolates
list reprs, since no caller inspects the text. -/
def validate_nfa (nfa : NFA) : List String :=
  let T := nfa.transitions
  let states := collectStatesL T
  let i1 := if nfa.start ∉ states then
      ["El estado inicial " ++ natStr nfa.start ++ " no aparece en transiciones."] else []
  let i2 := if nfa.accept ∉ states then
      ["El estado de aceptación " ++ natStr nfa.accept ++ " no aparece en transiciones."]
    else []
  let indegStart := (triplesOf T).countP (fun tr => tr.2.2 == nfa.start)
  let i3 := if indegStart ≠ 0 then
      ["El estado inicial " ++ natStr nfa.start ++ " tiene indegree=" ++
        natStr indegStart ++ " (esperado 0)."] else []
  let outdegAccept := (lookupD T nfa.accept).length
  let i4 := if outdegAccept ≠ 0 then
      ["El estado de aceptación " ++ natStr nfa.accept ++ " tiene outdegree=" ++
        natStr outdegAccept ++ " (esperado 0)."] else []
  let seen := (reachLoop (fun s => (lookupD T s).map Prod.snd)
      (2 * (allTargets T).length + 1) [nfa.start] [nfa.start] []).2
  let unreachable := states.filter (fun s => decide (s ∉ seen))
  let i5 := if unreachable ≠ [] then
      ["Hay estados inalcanzables desde " ++ natStr nfa.start ++ ": " ++
        joinComma ((insSortBy Nat.ble unreachable).map natStr)] else []
  let i6 := if nfa.accept ∉ seen then
      ["El estado de aceptación " ++ natStr nfa.accept ++ " NO es alcanzable desde " ++
        natStr nfa.start ++ "."] else []
  i1 ++ i2 ++ i3 ++ i4 ++ i5 ++ i6

/-- Ordering on edges used by `renumber_nfa`'s BFS: Python's sort by the pair
(symbol, destination). -/
def edgeLe (a b : String × Nat) : Bool :=
  charsLt a.1.data b.1.data || (a.1 == b.1 && Nat.ble a.2 b.2)

/-- Position of the first occurrence of `x` in a list (the `enumerate`-built
`mapping` dict of `renumber_nfa`; the order list is duplicate-free, so first
and last occurrence coincide). -/
def idxOf1 : List Nat → Nat → Option Nat
  | [], _ => none
  | a :: l, x => if a = x then some 0 else (idxOf1 l x).map (· + 1)

/-- The inner list comprehension of `renumber_nfa`'s dict rebuild: renumber
every destination, failing on a missing mapping (Python `KeyError`). -/
def mapEdges (mp : Nat → Option Nat) : List (String × Nat) → Option (List (String × Nat))
  | [] => some []
  | e :: rest =>
    match mp e.2, mapEdges mp rest with
    | some nt, some r => some ((e.1, nt) :: r)
    | _, _ => none

/-- The outer rebuild loop of `renumber_nfa`: for each dict item in order,
renumber the key and its edges and extend `T2` (Python's
`T2.setdefault(ns, []).append(...)` per edge, here the whole renumbered edge
list at once). -/
def buildT2 (mp : Nat → Option Nat) : Trans → Trans → Option Trans
  | acc, [] => some acc
  | acc, p :: rest =>
    match mp p.1, mapEdges mp p.2 with
    | some ns, some es => buildT2 mp (addEdges acc ns es) rest
    | _, _ => none

/-- The BFS of `renumber_nfa`: visitation order and seen set from the start
state, outgoing edges taken in sorted (symbol, destination) order. -/
def renumBfs (nfa : NFA) : List Nat × List Nat :=
  reachLoop (fun s => (insSortBy edgeLe (lookupD nfa.transitions s)).map Prod.snd)
    (2 * (allTargets nfa.transitions).length + 1) [nfa.start] [nfa.start] []

/-- The BFS order with any states the traversal missed appended in ascending
order (`for s in sorted(states): if s not in seen: order.append(s)`). -/
def renumOrder1 (nfa : NFA) : List Nat :=
  (renumBfs nfa).1 ++
    (insSortBy Nat.ble (collectStatesL nfa.transitions)).filter
      (fun s => decide (s ∉ (renumBfs nfa).2))

/-- The final ordering of `renumber_nfa`: the accept state is forced last when
requested and present. -/
def renumOrder (nfa : NFA) (makeAcceptLast : Bool) : List Nat :=
  if makeAcceptLast ∧ nfa.accept ∈ renumOrder1 nfa then
    (renumOrder1 nfa).filter (fun s => decide (s ≠ nfa.accept)) ++ [nfa.accept]
  else renumOrder1 nfa

/-- `renumber_nfa` from src/utils/validation.py: BFS order from the start
(edges visited in sorted order), unseen states appended in ascending order,
the accept state optionally forced last, then ids 1..N assigned by position.
`none` models the `KeyError` Python raises when `mapping` misses a state
(possible only when the accept state occurs nowhere in the transitions). -/
def renumber_nfa (nfa : NFA) (makeAcceptLast : Bool) : Option NFA :=
  let mp : Nat → Option Nat := fun s => (idxOf1 (renumOrder nfa makeAcceptLast) s).map (· + 1)
  match buildT2 mp [] nfa.transitions, mp nfa.start, mp nfa.accept with
  | some tr, some s2, some a2 => some ⟨s2, a2, tr⟩
  | _, _, _ => none

/- ## src/cli/commands.py — the compilation steps of procesar_expresion_completa -/

/-- The pipeline of `procesar_expresion_completa` (src/cli/commands.py, the
compilation steps): desugar, insert concatenation, shunting-yard, tree build,
Thompson, renumber (accept last), subset construction, minimization. -/
def pipelineAutomata (expr : String) : Option (NFA × DFA × DFA) :=
  match buildSyntaxTree (shunting_yard (insert_concatenation (expand_plus_question expr))) with
  | none => none
  | some root =>
    match thompson_from_ast root with
    | none => none
    | some nfa0 =>
      match renumber_nfa nfa0 true with
      | none => none
      | some nfa =>
        let dfa := subset_construction nfa
        match minimize_dfa dfa with
        | none => none
        | some dfaMin => some (nfa, dfa, dfaMin)

/-- The three acceptance verdicts `procesar_expresion_completa` prints:
`simulate_nfa` on the renumbered NFA, `simulate_dfa` on the subset-constructed
DFA, `simulate_dfa` on the minimized DFA. -/
def pipelineVerdicts (expr w : String) : Option (Bool × Bool × Bool) :=
  (pipelineAutomata expr).map (fun t =>
    (simulate_nfa t.1 w, simulate_dfa t.2.1 w, simulate_dfa t.2.2 w))

/-- A 13-state chain DFA (`s0 → s1 → ⋯ → s12` on `a`, only `s12` accepting):
each refinement pass splits exactly one state off the non-accepting block, so
the pass counter climbs past 10. -/
def chainDfa : DFA :=
  { states := ["s0", "s1", "s2", "s3", "s4", "s5", "s6", "s7", "s8", "s9", "s10",
               "s11", "s12"],
    alphabet := ["a"],
    transitions := [("s0", [("a", "s1")]), ("s1", [("a", "s2")]), ("s2", [("a", "s3")]),
      ("s3", [("a", "s4")]), ("s4", [("a", "s5")]), ("s5", [("a", "s6")]),
      ("s6", [("a", "s7")]), ("s7", [("a", "s8")]), ("s8", [("a", "s9")]),
      ("s9", [("a", "s10")]), ("s10", [("a", "s11")]), ("s11", [("a", "s12")])],
    start := "s0", acceptStates := ["s12"] }

/-- Invariant maintained by the `subset_construction` worklist loop. -/
structure SubsetInv (nfa : NFA) (st : SubsetState) : Prop where
  proc_canon : ∀ p ∈ st.processed,
    canonSet p.1 = p.1 ∧ p.1 ≠ [] ∧ p.2 = format_state_set p.1
  states_proc : ∀ l ∈ st.dfa.states, ∃ p ∈ st.processed, p.2 = l
  accept_iff : ∀ p ∈ st.processed, (p.2 ∈ st.dfa.acceptStates ↔ nfa.accept ∈ p.1)
  accept_states : ∀ l ∈ st.dfa.acceptStates, l ∈ st.dfa.states
  queue_proc : ∀ q ∈ st.queue, (canonSet q.2, q.1) ∈ st.processed
  trans_src : ∀ q sym q', DFA.get_transition st.dfa q sym = some q' →
    ∃ S, (S, q) ∈ st.processed ∧ move_dfa S sym nfa ≠ []

/-- Reachability along the edges of a transition dictionary, as traversed by
the BFS of `validate_nfa` (successors read through `lookupD`). -/
inductive ReachT (T : Trans) (a : Nat) : Nat → Prop
  | refl : ReachT T a a
  | step {b c : Nat} (sym : String) (h : ReachT T a b) (he : (sym, c) ∈ lookupD T b) :
      ReachT T a c

/-- Structural invariant of every fragment produced by Thompson's `build`:
all mentioned states lie in the id range `(c, c']`, the start is a key with
no incoming edge, the accept is a target with no outgoing edge, and every
mentioned state is reachable from the start. -/
structure BuildInv (A : NFA) (c c' : Nat) : Prop where
  lt : c < c'
  start_lo : c < A.start
  start_hi : A.start ≤ c'
  accept_lo : c < A.accept
  accept_hi : A.accept ≤ c'
  sa_ne : A.start ≠ A.accept
  range : ∀ x ∈ collectStatesL A.transitions, c < x ∧ x ≤ c'
  start_key : A.start ∈ A.transitions.map Prod.fst
  accept_tgt : A.accept ∈ allTargets A.transitions
  start_no_in : A.start ∉ allTargets A.transitions
  accept_no_out : A.accept ∉ A.transitions.map Prod.fst
  reach : ∀ s ∈ collectStatesL A.transitions, ReachT A.transitions A.start s

/- ## Theorems -/

theorem mem_insSorted (le : α → α → Bool) (a x : α) (l : List α) :
    x ∈ insSorted le a l ↔ x = a ∨ x ∈ l := by
  induction l with
  | nil => simp [insSorted]
  | cons b rest ih =>
    by_cases h : le a b = true
    · simp [insSorted, h]
    · simp only [insSorted, if_neg h, List.mem_cons, ih]
      tauto

theorem mem_insSortBy (le : α → α → Bool) (x : α) (l : List α) :
    x ∈ insSortBy le l ↔ x ∈ l := by
  induction l with
  | nil => simp [insSortBy]
  | cons a rest ih => simp [insSortBy, mem_insSorted, ih]

theorem scanGroup_length (l : List Char) : ∀ d tb,
    (scanGroup l d tb).1.length + (scanGroup l d tb).2.length = l.length := by
  induction l with
  | nil => intro d tb; simp [scanGroup]
  | cons c rest ih =>
    intro d tb
    by_cases h : d = 0
    · simp [scanGroup, h]
    · simp only [scanGroup, if_neg h, List.length_cons]
      have := ih (if c = '(' ∧ tb % 2 = 0 then d + 1
                  else if c = ')' ∧ tb % 2 = 0 then d - 1 else d)
                 (if c = '\\' then tb + 1 else 0)
      omega

theorem scanGroup_fst_le (l : List Char) (d tb : Nat) :
    (scanGroup l d tb).1.length ≤ l.length := by
  have := scanGroup_length l d tb; omega

theorem scanGroup_snd_le (l : List Char) (d tb : Nat) :
    (scanGroup l d tb).2.length ≤ l.length := by
  have := scanGroup_length l d tb; omega

/- ## Auxiliary facts for the claims -/

theorem pushFresh_eq [DecidableEq α] (ts : List α) : ∀ (q seen : List α),
    pushFresh ts (q, seen) = (q ++ freshOf ts seen, seen ++ freshOf ts seen) := by
  induction ts with
  | nil => intro q seen; simp [pushFresh, freshOf]
  | cons t ts ih =>
    intro q seen
    by_cases h : t ∈ seen
    · simp [pushFresh, freshOf, h, ih]
    · simp only [pushFresh, freshOf, if_neg h]
      rw [ih]
      simp

theorem freshOf_mem [DecidableEq α] : ∀ (ts seen : List α) (x : α),
    x ∈ freshOf ts seen → x ∈ ts ∧ x ∉ seen := by
  intro ts
  induction ts with
  | nil => intro seen x hx; simp [freshOf] at hx
  | cons t ts ih =>
    intro seen x hx
    by_cases h : t ∈ seen
    · simp only [freshOf, if_pos h] at hx
      have := ih seen x hx
      exact ⟨List.mem_cons_of_mem _ this.1, this.2⟩
    · simp only [freshOf, if_neg h] at hx
      rcases List.mem_cons.mp hx with rfl | hx2
      · exact ⟨List.mem_cons_self _ _, h⟩
      · have := ih (seen ++ [t]) x hx2
        refine ⟨List.mem_cons_of_mem _ this.1, fun hc => this.2 ?_⟩
        exact List.mem_append_left _ hc

theorem freshOf_append_nodup [DecidableEq α] : ∀ (ts seen : List α),
    seen.Nodup → (seen ++ freshOf ts seen).Nodup := by
  intro ts
  induction ts with
  | nil => intro seen h; simpa [freshOf] using h
  | cons t ts ih =>
    intro seen h
    by_cases hm : t ∈ seen
    · simpa [freshOf, hm] using ih seen h
    · have h2 : (seen ++ [t]).Nodup := by
        simp [List.nodup_append, h, hm]
      have := ih (seen ++ [t]) h2
      simpa [freshOf, hm, List.append_assoc] using this

theorem freshOf_complete [DecidableEq α] : ∀ (ts seen : List α) (x : α),
    x ∈ ts → x ∈ seen ++ freshOf ts seen := by
  intro ts
  induction ts with
  | nil => intro seen x hx; simp at hx
  | cons t ts ih =>
    intro seen x hx
    rcases List.mem_cons.mp hx with rfl | hx2
    · by_cases hm : x ∈ seen
      · simp [freshOf, hm]
      · simp [freshOf, hm]
    · by_cases hm : t ∈ seen
      · simpa [freshOf, hm] using ih seen x hx2
      · have := ih (seen ++ [t]) x hx2
        simp only [freshOf, if_neg hm]
        simp only [List.mem_append, List.mem_cons, List.mem_singleton] at this ⊢
        tauto

theorem reachLoop_order_prefix [DecidableEq α] (succ : α → List α) :
    ∀ (fuel : Nat) (queue seen order : List α),
      ∃ tl, (reachLoop succ fuel queue seen order).1 = order ++ tl := by
  intro fuel
  induction fuel with
  | zero => intro q seen order; exact ⟨[], by simp [reachLoop]⟩
  | succ fuel ih =>
    intro q seen order
    cases q with
    | nil => exact ⟨[], by simp [reachLoop]⟩
    | cons s rest =>
      obtain ⟨tl, htl⟩ := ih (pushFresh (succ s) (rest, seen)).1
        (pushFresh (succ s) (rest, seen)).2 (order ++ [s])
      exact ⟨s :: tl, by simpa [reachLoop] using htl⟩

/-- Main specification of the worklist loop: starting from a state where the
seen list is exactly the visitation order followed by the pending queue and is
duplicate-free, with enough fuel (the successor sets stay inside a finite
universe `univ`), the loop drains the queue: the final order equals the final
seen list, it is duplicate-free, it contains the initial seen list, and it is
closed under the successor function. -/
theorem reachLoop_spec [DecidableEq α] (succ : α → List α) (univ : List α)
    (hsucc : ∀ a, ∀ b ∈ succ a, b ∈ univ) :
    ∀ (fuel : Nat) (queue seen order : List α),
      seen = order ++ queue → seen.Nodup →
      2 * (univ.toFinset \ seen.toFinset).card + queue.length ≤ fuel →
      (reachLoop succ fuel queue seen order).1 = (reachLoop succ fuel queue seen order).2 ∧
        (reachLoop succ fuel queue seen order).2.Nodup ∧
        (∀ x ∈ seen, x ∈ (reachLoop succ fuel queue seen order).2) ∧
        ((∀ x ∈ seen, x ∈ queue ∨ ∀ b ∈ succ x, b ∈ seen) →
          ∀ x ∈ (reachLoop succ fuel queue seen order).2, ∀ b ∈ succ x,
            b ∈ (reachLoop succ fuel queue seen order).2) := by
  intro fuel
  induction fuel with
  | zero =>
    intro queue seen order hseen hnd hfuel
    have hq : queue = [] := by
      cases queue with
      | nil => rfl
      | cons a b => simp only [List.length_cons] at hfuel; omega
    subst hq
    refine ⟨by simpa [reachLoop] using hseen.symm, by simpa [reachLoop] using hnd,
      by simp [reachLoop], ?_⟩
    intro hinv x hx b hb
    simp only [reachLoop] at hx ⊢
    rcases hinv x hx with hc | hc
    · simp at hc
    · exact hc b hb
  | succ fuel ih =>
    intro queue seen order hseen hnd hfuel
    cases queue with
    | nil =>
      refine ⟨by simpa [reachLoop] using hseen.symm, by simpa [reachLoop] using hnd,
        by simp [reachLoop], ?_⟩
      intro hinv x hx b hb
      simp only [reachLoop] at hx ⊢
      rcases hinv x hx with hc | hc
      · simp at hc
      · exact hc b hb
    | cons s rest =>
      have hunf : reachLoop succ (fuel + 1) (s :: rest) seen order =
          reachLoop succ fuel (rest ++ freshOf (succ s) seen)
            (seen ++ freshOf (succ s) seen) (order ++ [s]) := by
        simp [reachLoop, pushFresh_eq]
      set fresh := freshOf (succ s) seen with hfr
      have hfmem : ∀ x ∈ fresh, x ∈ succ s ∧ x ∉ seen := fun x hx => freshOf_mem _ _ x hx
      have hnd2 : (seen ++ fresh).Nodup := freshOf_append_nodup _ _ hnd
      have hfnd : fresh.Nodup := hnd2.of_append_right
      have hseen2 : seen ++ fresh = (order ++ [s]) ++ (rest ++ fresh) := by
        rw [hseen]; simp
      -- fuel accounting
      have hsub : fresh.toFinset ⊆ univ.toFinset \ seen.toFinset := by
        intro x hx
        rw [List.mem_toFinset] at hx
        rcases hfmem x hx with ⟨h1, h2⟩
        rw [Finset.mem_sdiff, List.mem_toFinset, List.mem_toFinset]
        exact ⟨hsucc s x h1, h2⟩
      have hcard1 : (univ.toFinset \ (seen ++ fresh).toFinset).card =
          (univ.toFinset \ seen.toFinset).card - fresh.length := by
        have : univ.toFinset \ (seen ++ fresh).toFinset =
            (univ.toFinset \ seen.toFinset) \ fresh.toFinset := by
          ext x
          simp [List.mem_toFinset, Finset.mem_sdiff]
          tauto
        rw [this, Finset.card_sdiff hsub, List.toFinset_card_of_nodup hfnd]
      have hcard2 : fresh.length ≤ (univ.toFinset \ seen.toFinset).card := by
        calc fresh.length = fresh.toFinset.card := (List.toFinset_card_of_nodup hfnd).symm
        _ ≤ _ := Finset.card_le_card hsub
      have hfuel2 : 2 * (univ.toFinset \ (seen ++ fresh).toFinset).card +
          (rest ++ fresh).length ≤ fuel := by
        rw [hcard1]
        simp only [List.length_append]
        simp only [List.length_cons] at hfuel
        omega
      obtain ⟨ih1, ih2, ih3, ih4⟩ := ih (rest ++ fresh) (seen ++ fresh) (order ++ [s])
        hseen2 hnd2 hfuel2
      rw [hunf]
      refine ⟨ih1, ih2, fun x hx => ih3 x (List.mem_append_left _ hx), ?_⟩
      intro hinv
      apply ih4
      intro x hx
      rcases List.mem_append.mp hx with hxs | hxf
      · rcases hinv x hxs with hq | hcl
        · rcases List.mem_cons.mp hq with rfl | hq2
          · right
            intro b hb
            exact freshOf_complete _ _ b hb
          · left; exact List.mem_append_left _ hq2
        · right
          intro b hb
          exact List.mem_append_left _ (hcl b hb)
      · left; exact List.mem_append_right _ hxf

theorem insSorted_perm (le : α → α → Bool) (a : α) (l : List α) :
    (insSorted le a l).Perm (a :: l) := by
  induction l with
  | nil => simp [insSorted]
  | cons b rest ih =>
    by_cases h : le a b = true
    · simp [insSorted, h]
    · simp only [insSorted, if_neg h]
      exact (ih.cons b).trans (List.Perm.swap a b rest)

theorem insSortBy_perm (le : α → α → Bool) (l : List α) : (insSortBy le l).Perm l := by
  induction l with
  | nil => simp [insSortBy]
  | cons a rest ih => exact (insSorted_perm le a _).trans (ih.cons a)

theorem idxOf1_get : ∀ (l : List Nat) (x : Nat) (i : Nat), idxOf1 l x = some i →
    ∃ h : i < l.length, l.get ⟨i, h⟩ = x := by
  intro l
  induction l with
  | nil => intro x i h; simp [idxOf1] at h
  | cons a rest ih =>
    intro x i h
    by_cases ha : a = x
    · simp only [idxOf1, if_pos ha] at h
      cases h
      exact ⟨by simp, ha⟩
    · simp only [idxOf1, if_neg ha, Option.map_eq_some'] at h
      obtain ⟨j, hj, rfl⟩ := h
      obtain ⟨hlt, hget⟩ := ih x j hj
      exact ⟨by simpa using Nat.succ_lt_succ hlt, by simpa using hget⟩

theorem idxOf1_of_mem : ∀ (l : List Nat) (x : Nat), x ∈ l → ∃ i, idxOf1 l x = some i := by
  intro l
  induction l with
  | nil => intro x h; simp at h
  | cons a rest ih =>
    intro x h
    by_cases ha : a = x
    · exact ⟨0, by simp [idxOf1, ha]⟩
    · rcases List.mem_cons.mp h with rfl | h2
      · exact absurd rfl ha
      · obtain ⟨i, hi⟩ := ih x h2
        exact ⟨i + 1, by simp [idxOf1, ha, hi]⟩

theorem idxOf1_append_last : ∀ (l : List Nat) (x : Nat), x ∉ l →
    idxOf1 (l ++ [x]) x = some l.length := by
  intro l
  induction l with
  | nil => intro x _; simp [idxOf1]
  | cons a rest ih =>
    intro x hx
    have ha : a ≠ x := fun hc => hx (hc ▸ List.mem_cons_self a rest)
    have h2 : x ∉ rest := fun hc => hx (List.mem_cons_of_mem _ hc)
    simp [idxOf1, ha, ih x h2]

theorem addEdges_not_mem (acc : Trans) (s : Nat) (es : List (String × Nat))
    (h : ∀ q ∈ acc, ¬ q.1 = s) : addEdges acc s es = acc ++ [(s, es)] := by
  have : acc.any (fun p => p.1 == s) = false := by
    rw [List.any_eq_false]
    intro q hq
    simpa using h q hq
  simp [addEdges, this]

theorem mapEdges_eq_map (mp : Nat → Option Nat) (f : Nat → Nat) :
    ∀ (l : List (String × Nat)), (∀ e ∈ l, mp e.2 = some (f e.2)) →
      mapEdges mp l = some (l.map (fun e => (e.1, f e.2))) := by
  intro l
  induction l with
  | nil => intro _; simp [mapEdges]
  | cons e rest ih =>
    intro h
    have he := h e (List.mem_cons_self _ _)
    have hr := ih (fun x hx => h x (List.mem_cons_of_mem _ hx))
    simp [mapEdges, he, hr]

theorem buildT2_eq_map (mp : Nat → Option Nat) (f : Nat → Nat) :
    ∀ (T acc : Trans),
      (∀ p ∈ T, mp p.1 = some (f p.1) ∧ ∀ e ∈ p.2, mp e.2 = some (f e.2)) →
      ((T.map (fun p => f p.1)).Nodup) →
      (∀ p ∈ T, ∀ q ∈ acc, ¬ q.1 = f p.1) →
      buildT2 mp acc T =
        some (acc ++ T.map (fun p => (f p.1, p.2.map (fun e => (e.1, f e.2))))) := by
  intro T
  induction T with
  | nil => intro acc _ _ _; simp [buildT2]
  | cons p rest ih =>
    intro acc hmp hnd hfresh
    obtain ⟨hk, he⟩ := hmp p (List.mem_cons_self _ _)
    have hadd : addEdges acc (f p.1) (p.2.map (fun e => (e.1, f e.2))) =
        acc ++ [(f p.1, p.2.map (fun e => (e.1, f e.2)))] :=
      addEdges_not_mem _ _ _ (fun q hq => hfresh p (List.mem_cons_self _ _) q hq)
    have hrest := ih (acc ++ [(f p.1, p.2.map (fun e => (e.1, f e.2)))])
      (fun q hq => hmp q (List.mem_cons_of_mem _ hq))
      (by simpa using hnd.of_cons)
      (by
        intro q hq r hr
        rcases List.mem_append.mp hr with h1 | h2
        · exact hfresh q (List.mem_cons_of_mem _ hq) r h1
        · simp only [List.mem_singleton] at h2
          subst h2
          simp only [List.map_cons, List.nodup_cons] at hnd
          intro hc
          simp only at hc
          exact hnd.1 (by rw [hc]; exact List.mem_map_of_mem (fun p => f p.1) hq))
    simp only [buildT2, hk, mapEdges_eq_map mp f p.2 he, hadd, hrest]
    simp

theorem mem_allTargets (T : Trans) (p : Nat × List (String × Nat)) (e : String × Nat)
    (hp : p ∈ T) (he : e ∈ p.2) : e.2 ∈ allTargets T := by
  simp only [allTargets, List.mem_flatten]
  exact ⟨p.2.map Prod.snd, List.mem_map_of_mem _ hp, List.mem_map_of_mem _ he⟩

theorem lookupD_mem (T : Trans) (s : Nat) (e : String × Nat) (he : e ∈ lookupD T s) :
    ∃ p ∈ T, p.1 = s ∧ e ∈ p.2 := by
  unfold lookupD at he
  match hf : T.find? (fun p => p.1 == s) with
  | none => rw [hf] at he; simp at he
  | some p =>
    rw [hf] at he
    have hmem := List.mem_of_find?_eq_some hf
    have hkey := List.find?_some hf
    exact ⟨p, hmem, by simpa using hkey, he⟩

theorem lookupD_targets (T : Trans) (s : Nat) (e : String × Nat)
    (he : e ∈ lookupD T s) : e.2 ∈ allTargets T := by
  obtain ⟨p, hp, _, hep⟩ := lookupD_mem T s e he
  exact mem_allTargets T p e hp hep

theorem mem_collect_of_key (T : Trans) (p : Nat × List (String × Nat)) (hp : p ∈ T) :
    p.1 ∈ collectStatesL T := by
  simp only [collectStatesL, List.mem_dedup, List.mem_append]
  exact Or.inl (List.mem_map_of_mem _ hp)

theorem mem_collect_of_target (T : Trans) (x : Nat) (hx : x ∈ allTargets T) :
    x ∈ collectStatesL T := by
  simp only [collectStatesL, List.mem_dedup, List.mem_append]
  exact Or.inr hx

theorem refineLoopGo_le (dfa : DFA) :
    ∀ (fuel iteration : Nat) (partitions : List (List String)), iteration ≤ 10 →
      (refineLoopGo dfa fuel iteration partitions).2 ≤ 11 := by
  intro fuel
  induction fuel with
  | zero => intro it parts h; simpa [refineLoopGo] using by omega
  | succ fuel ih =>
    intro it parts h
    simp only [refineLoopGo]
    by_cases hc :
        ((parts.map (fun p => refine_partition p parts dfa)).any
          (fun r => decide (1 < r.length)) = true) ∧ it + 1 ≤ 10
    · simpa [hc] using ih (it + 1) _ hc.2
    · simp only [if_neg hc]
      omega

/- ## Claims -/

set_option maxRecDepth 10000 in
/-- C2: running the full pipeline (desugar, concatenation insertion,
shunting-yard, tree build, Thompson, renumbering, subset construction,
minimization) on the regex `(a|b)*abb(a|b)*` yields automata on which all
three simulators accept `babbaaaa` and all three reject `abab`. -/
theorem c2_scenario_abb_pipeline :
    pipelineVerdicts "(a|b)*abb(a|b)*" "babbaaaa" = some (true, true, true) ∧
      pipelineVerdicts "(a|b)*abb(a|b)*" "abab" = some (false, false, false) := by
  constructor <;> decide

/-- C1 (code bug): the three verdicts are NOT always equal.  For the regex
`a*` and the reserved empty-string word `ε`, `simulate_nfa` replaces `ε` by
the empty string and accepts, while `simulate_dfa` (which lacks that special
case) walks the literal character `ε`, finds no transition, and rejects on
both the subset-constructed and the minimized DFA. -/
theorem c1_verdicts_diverge_on_epsilon_word :
    pipelineVerdicts "a*" "ε" = some (true, false, false) := by decide

/-- C8: for `a|bc*`, concatenation insertion followed by shunting-yard yields
exactly the postfix sequence `a b c * . |`. -/
theorem c8_postfix_of_alt_concat_star :
    shunting_yard (insert_concatenation "a|bc*") = ["a", "b", "c", "*", ".", "|"] := by
  decide

set_option maxRecDepth 4000 in
/-- C5 counterexample: on the 13-state chain DFA the refinement loop of
`minimize_dfa` executes 11 passes — the pass counter exceeds 10, contradicting
the claimed ceiling of 10 passes (the source increments the counter and checks
`iteration > 10` only after the pass has run). -/
theorem c5_counterexample_eleven_passes :
    minimizePasses chainDfa = 11 ∧ ¬ minimizePasses chainDfa ≤ 10 := by
  constructor <;> decide

/-- C5 (amended): the refinement loop of `minimize_dfa` repeats full passes
until no block splits or the counter check fires, and performs at most 11
passes on any input DFA. -/
theorem c5_minimize_pass_bound (dfa : DFA) : minimizePasses dfa ≤ 11 := by
  unfold minimizePasses
  by_cases h0 : dfa.states = []
  · simp [h0]
  · simp only [if_neg h0]
    by_cases h1 : (remove_unreachable_states dfa).states.length ≤ 1
    · simp [h1]
    · simp only [if_neg h1]
      exact refineLoopGo_le _ 12 0 _ (by omega)

/-- C6 counterexample: on the postfix token list `a b` two trees remain on the
stack, yet `build_syntax_tree` raises nothing and silently returns the most
recently pushed tree (the leaf `b`). -/
theorem c6_counterexample_leftover_trees :
    buildStack ["a", "b"] =
        some [RegexNode.mk "b" none none, RegexNode.mk "a" none none] ∧
      buildSyntaxTree ["a", "b"] = some (RegexNode.mk "b" none none) := by
  exact ⟨rfl, rfl⟩

/-- C6 (amended): `build_syntax_tree` fails with a stack-underflow error
(Python `IndexError`, modelled as `none`) whenever an operator pops an empty
stack — propagated through `buildStack` — but when more than one tree remains
after all tokens it does NOT fail: it silently returns the most recently
pushed tree. -/
theorem c6_build_tree_underflow_and_leftover :
    (∀ (tokens : List String), buildStack tokens = none → buildSyntaxTree tokens = none) ∧
      (∀ (tokens : List String) (r : RegexNode) (rest : List RegexNode),
        buildStack tokens = some (r :: rest) → buildSyntaxTree tokens = some r) := by
  constructor
  · intro tokens h
    simp [buildSyntaxTree, h]
  · intro tokens r rest h
    simp [buildSyntaxTree, h]

/-- Witness for C6: instantiating the amended statement on `a b`, where two
trees remain and the top one is returned. -/
theorem c6_witness :
    buildSyntaxTree ["a", "b"] = some (RegexNode.mk "b" none none) :=
  c6_build_tree_underflow_and_leftover.2 ["a", "b"] (RegexNode.mk "b" none none)
    [RegexNode.mk "a" none none] rfl

/-- C7 counterexample: desugaring `a+` yields `aa*`, not the claimed
`(a)(a)*` — the duplicated unit is not wrapped in parentheses. -/
theorem c7_counterexample_plus_no_parens :
    expand_plus_question "a+" = "aa*" ∧ expand_plus_question "a+" ≠ "(a)(a)*" := by
  constructor <;> decide

/-- C7 (amended): an atomic unit followed by an unescaped `+` desugars to the
unit written twice followed by `*`, with no added parentheses (parenthesized
units keep only their own parentheses); a unit followed by an unescaped `?`
desugars to `(unit|ε)`.  The first two conjuncts state this for every literal
unit and every continuation of the input; the rest instantiate group and
escape-pair units. -/
theorem c7_plus_question_desugaring :
    (∀ (fuel : Nat) (c : Char) (rest : List Char) (tb : Nat), c ≠ '\\' → c ≠ '(' →
        expandGo (fuel + 1) (c :: '+' :: rest) tb = c :: c :: '*' :: expandGo fuel rest 0) ∧
      (∀ (fuel : Nat) (c : Char) (rest : List Char) (tb : Nat), c ≠ '\\' → c ≠ '(' →
        expandGo (fuel + 1) (c :: '?' :: rest) tb =
          '(' :: c :: '|' :: 'ε' :: ')' :: expandGo fuel rest 0) ∧
      expand_plus_question "a+" = "aa*" ∧
      expand_plus_question "(ab)+" = "(ab)(ab)*" ∧
      expand_plus_question "\\c+" = "\\c\\c*" ∧
      expand_plus_question "a?" = "(a|ε)" ∧
      expand_plus_question "(ab)?" = "((ab)|ε)" := by
  refine ⟨?_, ?_, by decide, by decide, by decide, by decide, by decide⟩
  · intro fuel c rest tb hbs hpar
    rw [expandGo.eq_def]
    split
    · omega
    · simp_all
    · rename_i heq1 heq2
      injection heq2 with h1 _
      exact absurd h1 hbs
    · rename_i hno hfuel hrest
      injection hrest with hc hr
      subst hc
      subst hr
      cases Nat.succ.inj hfuel
      simp [hbs, hpar]
  · intro fuel c rest tb hbs hpar
    rw [expandGo.eq_def]
    split
    · omega
    · simp_all
    · rename_i heq1 heq2
      injection heq2 with h1 _
      exact absurd h1 hbs
    · rename_i hno hfuel hrest
      injection hrest with hc hr
      subst hc
      subst hr
      cases Nat.succ.inj hfuel
      simp [hbs, hpar]

/-- Witness for C7: the literal-unit statement applied to `a+` at the end of
the input. -/
theorem c7_witness : expandGo 1 ['a', '+'] 0 = ['a', 'a', '*'] := by
  simpa using c7_plus_question_desugaring.1 0 'a' [] 0 (by decide) (by decide)

/-- C4 counterexample: `renumber_nfa` with `make_accept_last=True` does not
give start id 1 for every NFA.  When start = accept, the accept-last step
moves the start away from position 0 (start id becomes 2 here); and when the
accept state occurs nowhere in the transitions, the mapping lookup crashes
(`KeyError`, modelled as `none`). -/
theorem c4_counterexample_renumber :
    (renumber_nfa ⟨5, 5, [(5, [("a", 6)])]⟩ true).map NFA.start = some 2 ∧
      (renumber_nfa ⟨5, 5, [(5, [("a", 6)])]⟩ true).map NFA.start ≠ some 1 ∧
      renumber_nfa ⟨1, 99, [(1, [("a", 2)])]⟩ true = none := by
  refine ⟨by decide, by decide, by decide⟩

/-- C4 (amended): for every NFA with distinct accept and start states whose
accept state occurs in the transition structure (and dict-unique transition
keys), `renumber_nfa` with `make_accept_last=True` succeeds; the result has
start id 1, accept id equal to the maximum id present, and is the input with
every state id renamed by a mapping `f` that is injective on the NFA's
states. -/
theorem c4_renumber_canonical (nfa : NFA)
    (hkeys : (nfa.transitions.map Prod.fst).Nodup)
    (hne : nfa.accept ≠ nfa.start)
    (hacc : nfa.accept ∈ collectStatesL nfa.transitions) :
    ∃ (out : NFA) (f : Nat → Nat),
      renumber_nfa nfa true = some out ∧
        out.start = 1 ∧
        out.start ≤ out.accept ∧
        (∀ s ∈ collectStatesL out.transitions, s ≤ out.accept) ∧
        out.start = f nfa.start ∧ out.accept = f nfa.accept ∧
        out.transitions = nfa.transitions.map
          (fun p => (f p.1, p.2.map (fun e => (e.1, f e.2)))) ∧
        (∀ a ∈ nfa.start :: collectStatesL nfa.transitions,
          ∀ b ∈ nfa.start :: collectStatesL nfa.transitions, f a = f b → a = b) := by
  classical
  have hsucc : ∀ a, ∀ b ∈ (fun s =>
      (insSortBy edgeLe (lookupD nfa.transitions s)).map Prod.snd) a,
      b ∈ allTargets nfa.transitions := by
    intro a b hb
    simp only [List.mem_map] at hb
    obtain ⟨e, he, rfl⟩ := hb
    exact lookupD_targets nfa.transitions a e ((mem_insSortBy _ _ _).mp he)
  have hμ : 2 * ((allTargets nfa.transitions).toFinset \ [nfa.start].toFinset).card +
      [nfa.start].length ≤ 2 * (allTargets nfa.transitions).length + 1 := by
    have h1 : ((allTargets nfa.transitions).toFinset \ [nfa.start].toFinset).card ≤
        (allTargets nfa.transitions).toFinset.card :=
      Finset.card_le_card Finset.sdiff_subset
    have h2 : (allTargets nfa.transitions).toFinset.card ≤
        (allTargets nfa.transitions).length := List.toFinset_card_le _
    simp only [List.length_cons, List.length_nil]
    omega
  obtain ⟨heq, hnodup, hsub0, _⟩ := reachLoop_spec
      (fun s => (insSortBy edgeLe (lookupD nfa.transitions s)).map Prod.snd)
      (allTargets nfa.transitions) hsucc (2 * (allTargets nfa.transitions).length + 1)
      [nfa.start] [nfa.start] [] (by simp) (List.nodup_singleton _) hμ
  rw [show (reachLoop (fun s => (insSortBy edgeLe (lookupD nfa.transitions s)).map Prod.snd)
      (2 * (allTargets nfa.transitions).length + 1) [nfa.start] [nfa.start] []) =
      renumBfs nfa from rfl] at heq hnodup hsub0
  have hstart2 : nfa.start ∈ (renumBfs nfa).2 := hsub0 _ (by simp)
  have hstates_nodup : (collectStatesL nfa.transitions).Nodup := List.nodup_dedup _
  have hsorted_nodup : (insSortBy Nat.ble (collectStatesL nfa.transitions)).Nodup :=
    ((insSortBy_perm Nat.ble _).nodup_iff).mpr hstates_nodup
  have horder1_nodup : (renumOrder1 nfa).Nodup := by
    apply List.Nodup.append
    · rw [heq]; exact hnodup
    · exact hsorted_nodup.filter _
    · intro a ha hb
      rw [heq] at ha
      have h2 := (List.mem_filter.mp hb).2
      simp only [decide_eq_true_eq] at h2
      exact h2 ha
  have horder1_mem : ∀ s, s ∈ collectStatesL nfa.transitions ∨ s = nfa.start →
      s ∈ renumOrder1 nfa := by
    intro s hs
    by_cases h : s ∈ (renumBfs nfa).2
    · exact List.mem_append_left _ (heq ▸ h)
    · rcases hs with hs | rfl
      · refine List.mem_append_right _ ?_
        rw [List.mem_filter]
        exact ⟨(mem_insSortBy _ _ _).mpr hs, by simpa using h⟩
      · exact absurd hstart2 h
  have haccept1 : nfa.accept ∈ renumOrder1 nfa := horder1_mem _ (Or.inl hacc)
  have hhead1 : ∃ tl, (renumBfs nfa).1 = nfa.start :: tl := by
    obtain ⟨tl, htl⟩ := reachLoop_order_prefix
        (fun s => (insSortBy edgeLe (lookupD nfa.transitions s)).map Prod.snd)
        (2 * (allTargets nfa.transitions).length)
        (pushFresh ((insSortBy edgeLe (lookupD nfa.transitions nfa.start)).map Prod.snd)
          ([], [nfa.start])).1
        (pushFresh ((insSortBy edgeLe (lookupD nfa.transitions nfa.start)).map Prod.snd)
          ([], [nfa.start])).2 [nfa.start]
    exact ⟨tl, by simpa [renumBfs, reachLoop] using htl⟩
  obtain ⟨tl1, htl1⟩ := hhead1
  have hstart_ne_acc : nfa.start ≠ nfa.accept := fun h => hne h.symm
  have horder2_eq : renumOrder nfa true =
      (renumOrder1 nfa).filter (fun s => decide (s ≠ nfa.accept)) ++ [nfa.accept] := by
    rw [renumOrder, if_pos ⟨rfl, haccept1⟩]
  have horder1_head : renumOrder1 nfa = nfa.start ::
      (tl1 ++ (insSortBy Nat.ble (collectStatesL nfa.transitions)).filter
        (fun s => decide (s ∉ (renumBfs nfa).2))) := by
    rw [renumOrder1, htl1]; simp
  have horder2_head : ∃ tl, renumOrder nfa true = nfa.start :: tl := by
    rw [horder2_eq, horder1_head, List.filter_cons]
    rw [if_pos (by simpa using hstart_ne_acc)]
    exact ⟨_, List.cons_append _ _ _⟩
  have horder2_nodup : (renumOrder nfa true).Nodup := by
    rw [horder2_eq]
    apply List.Nodup.append
    · exact horder1_nodup.filter _
    · exact List.nodup_singleton _
    · intro a ha hb
      simp only [List.mem_singleton] at hb
      subst hb
      have h2 := (List.mem_filter.mp ha).2
      simp at h2
  have horder2_mem : ∀ s, s ∈ collectStatesL nfa.transitions ∨ s = nfa.start →
      s ∈ renumOrder nfa true := by
    intro s hs
    rw [horder2_eq]
    by_cases h : s = nfa.accept
    · subst h; exact List.mem_append_right _ (by simp)
    · refine List.mem_append_left _ ?_
      rw [List.mem_filter]
      exact ⟨horder1_mem s hs, by simpa using h⟩
  -- the mapping
  have hmp_of_mem : ∀ s ∈ renumOrder nfa true, ∃ i, idxOf1 (renumOrder nfa true) s = some i ∧
      i < (renumOrder nfa true).length := by
    intro s hsm
    obtain ⟨i, hi⟩ := idxOf1_of_mem _ s hsm
    obtain ⟨hlt, _⟩ := idxOf1_get _ s i hi
    exact ⟨i, hi, hlt⟩
  have hmp_start : idxOf1 (renumOrder nfa true) nfa.start = some 0 := by
    obtain ⟨tl2, htl2⟩ := horder2_head
    rw [htl2]
    simp [idxOf1]
  have hmp_accept : idxOf1 (renumOrder nfa true) nfa.accept =
      some ((renumOrder1 nfa).filter (fun s => decide (s ≠ nfa.accept))).length := by
    have hnotin : nfa.accept ∉ (renumOrder1 nfa).filter (fun s => decide (s ≠ nfa.accept)) := by
      intro hc
      have h2 := (List.mem_filter.mp hc).2
      simp at h2
    rw [horder2_eq]
    exact idxOf1_append_last _ _ hnotin
  -- f
  set f : Nat → Nat := fun s => ((idxOf1 (renumOrder nfa true) s).map (· + 1)).getD 0 with hf
  have hf_of_mem : ∀ s ∈ renumOrder nfa true,
      (idxOf1 (renumOrder nfa true) s).map (· + 1) = some (f s) ∧
        1 ≤ f s ∧ f s ≤ (renumOrder nfa true).length := by
    intro s hsm
    obtain ⟨i, hi, hlt⟩ := hmp_of_mem s hsm
    rw [hf]
    simp only [hi, Option.map_some']
    exact ⟨rfl, by simp, by simp; omega⟩
  have hinj : ∀ a ∈ renumOrder nfa true, ∀ b ∈ renumOrder nfa true, f a = f b → a = b := by
    intro a ha b hb hfe
    obtain ⟨i, hia, _⟩ := hmp_of_mem a ha
    obtain ⟨j, hjb, _⟩ := hmp_of_mem b hb
    rw [hf] at hfe
    simp only [hia, hjb, Option.map_some', Option.getD_some] at hfe
    have hij : i = j := by omega
    subst hij
    obtain ⟨h1, hga⟩ := idxOf1_get _ a i hia
    obtain ⟨h2, hgb⟩ := idxOf1_get _ b i hjb
    rw [← hga, ← hgb]
  have hmemT : ∀ p ∈ nfa.transitions, p.1 ∈ renumOrder nfa true ∧
      ∀ e ∈ p.2, e.2 ∈ renumOrder nfa true := by
    intro p hp
    refine ⟨horder2_mem _ (Or.inl (mem_collect_of_key _ p hp)), ?_⟩
    intro e he
    exact horder2_mem _ (Or.inl (mem_collect_of_target _ _ (mem_allTargets _ p e hp he)))
  have hkeys_mem : ∀ x ∈ nfa.transitions.map Prod.fst, x ∈ renumOrder nfa true := by
    intro x hx
    obtain ⟨p, hp, rfl⟩ := List.mem_map.mp hx
    exact (hmemT p hp).1
  have hbuild := buildT2_eq_map
      (fun s => (idxOf1 (renumOrder nfa true) s).map (· + 1)) f nfa.transitions []
      (by
        intro p hp
        obtain ⟨hk, ht⟩ := hmemT p hp
        refine ⟨(hf_of_mem _ hk).1, ?_⟩
        intro e he
        exact (hf_of_mem _ (ht e he)).1)
      (by
        have h : nfa.transitions.map (fun p => f p.1) =
            (nfa.transitions.map Prod.fst).map f := by simp [List.map_map]
        rw [h]
        apply List.Nodup.map_on ?_ hkeys
        intro x hx y hy hxy
        exact hinj x (hkeys_mem x hx) y (hkeys_mem y hy) hxy)
      (by intro p hp q hq; simp at hq)
  have hfstart : f nfa.start = 1 := by
    rw [hf]; simp [hmp_start]
  have hfaccept : f nfa.accept = (renumOrder nfa true).length := by
    rw [hf]
    simp only [hmp_accept, Option.map_some', Option.getD_some]
    rw [horder2_eq]
    simp
  have hsome : renumber_nfa nfa true = some ⟨1, (renumOrder nfa true).length,
      nfa.transitions.map (fun p => (f p.1, p.2.map (fun e => (e.1, f e.2))))⟩ := by
    rw [renumber_nfa]
    simp only [hbuild, hmp_start, Option.map_some', hmp_accept, List.nil_append]
    have : (((renumOrder1 nfa).filter (fun s => decide (s ≠ nfa.accept))).length + 1) =
        (renumOrder nfa true).length := by
      rw [horder2_eq]; simp
    rw [this]
  refine ⟨_, f, hsome, rfl, ?_, ?_, hfstart.symm, ?_, rfl, ?_⟩
  · -- 1 ≤ length
    show 1 ≤ (renumOrder nfa true).length
    rw [horder2_eq]
    simp
  · -- all states ≤ accept id
    intro s hs
    show s ≤ (renumOrder nfa true).length
    have hsplit : s ∈ nfa.transitions.map (fun p => f p.1) ∨
        s ∈ (allTargets nfa.transitions).map f := by
      simp only [collectStatesL, List.mem_dedup, List.mem_append] at hs
      rcases hs with hs | hs
      · left
        simpa [List.map_map] using hs
      · right
        have hAT : allTargets (nfa.transitions.map
            (fun p => (f p.1, p.2.map (fun e => (e.1, f e.2))))) =
            (allTargets nfa.transitions).map f := by
          simp [allTargets, List.map_map, Function.comp_def]
        rwa [hAT] at hs
    rcases hsplit with hs | hs
    · obtain ⟨q, hq, rfl⟩ := List.mem_map.mp hs
      have := (hf_of_mem _ (hmemT q hq).1).2
      omega
    · obtain ⟨x, hx, rfl⟩ := List.mem_map.mp hs
      have hx2 : x ∈ renumOrder nfa true :=
        horder2_mem _ (Or.inl (mem_collect_of_target _ _ hx))
      have := (hf_of_mem _ hx2).2
      omega
  · -- accept id
    show (renumOrder nfa true).length = f nfa.accept
    exact hfaccept.symm
  · -- injectivity
    intro a ha b hb
    apply hinj
    · rcases List.mem_cons.mp ha with rfl | h
      · exact horder2_mem _ (Or.inr rfl)
      · exact horder2_mem _ (Or.inl h)
    · rcases List.mem_cons.mp hb with rfl | h
      · exact horder2_mem _ (Or.inr rfl)
      · exact horder2_mem _ (Or.inl h)

/-- Witness for C4: the amended statement applied to the one-transition NFA
`1 --a--> 2`. -/
theorem c4_witness :
    ∃ out, renumber_nfa ⟨1, 2, [(1, [("a", 2)])]⟩ true = some out ∧ out.start = 1 := by
  obtain ⟨out, f, h1, h2, _⟩ :=
    c4_renumber_canonical ⟨1, 2, [(1, [("a", 2)])]⟩ (by decide) (by decide) (by decide)
  exact ⟨out, h1, h2⟩

/-- C9 counterexample: a `)` token encountered when no `(` is on the stack is
NOT discarded without effect on the output: with output `a b` and stack `|`,
processing `)` moves `|` to the output.  End to end, deleting that `)` from a
token list changes the result, so the token is not without effect. -/
theorem c9_counterexample_unmatched_paren_flushes :
    (syStep (["a", "b"], ["|"]) ")").1 = ["a", "b", "|"] ∧
      (syStep (["a", "b"], ["|"]) ")").1 ≠ ["a", "b"] ∧
      shunting_yard ["a", "|", "b", ")", "c"] = ["a", "b", "|", "c"] ∧
      shunting_yard ["a", "|", "b", "c"] = ["a", "b", "c", "|"] := by
  refine ⟨by decide, by decide, by decide, by decide⟩

/-- C9 (amended): the shunting-yard step is total and lenient — a `)` with no
`(` on the stack pops every remaining operator to the output and is then
discarded without error, and a token that is neither an operand, a
parenthesis, nor one of `| . * + ?` leaves the state untouched (skipped
without being emitted). -/
theorem c9_lenient_shunting_yard :
    (∀ (out stack : List String), "(" ∉ stack →
        syStep (out, stack) ")" = (out ++ stack, [])) ∧
      (∀ (st : List String × List String) (tok : String), isOperandTok tok = false →
        tok ≠ "(" → tok ≠ ")" → tok ≠ "|" → tok ≠ "." → tok ≠ "*" → tok ≠ "+" →
        tok ≠ "?" → syStep st tok = st) := by
  constructor
  · intro out stack h
    have hall : ∀ x ∈ stack, ¬ x = "(" := fun a ha hcon => h (hcon ▸ ha)
    have hd : stack.dropWhile (fun op => ! decide (op = "(")) = [] := by
      apply List.dropWhile_eq_nil_iff.mpr
      intro a ha
      simpa using hall a ha
    have hop : isOperandTok ")" = false := by decide
    simp [syStep, hop, hd]
    exact hall
  · intro st tok hop h1 h2 h3 h4 h5 h6 h7
    simp [syStep, hop, h1, h2, h3, h4, h5, h6, h7]

/-- Witness for C9: unmatched `)` on stack `|` flushes the stack into the
output; a stray `#` token is skipped. -/
theorem c9_witness :
    syStep (["a"], ["|"]) ")" = (["a", "|"], []) ∧
      syStep (["a"], ["|"]) "#" = (["a"], ["|"]) :=
  ⟨c9_lenient_shunting_yard.1 ["a"] ["|"] (by decide),
   c9_lenient_shunting_yard.2 (["a"], ["|"]) "#" (by decide) (by decide) (by decide)
     (by decide) (by decide) (by decide) (by decide) (by decide)⟩

/- quick sanity examples (claims restated on small inputs) -/

example : expand_plus_question "a+" = "aa*" := by decide
example : expand_plus_question "a?" = "(a|ε)" := by decide
example : expand_plus_question "(ab)+" = "(ab)(ab)*" := by decide
example : insert_concatenation "a|bc*" = ["a", "|", "b", ".", "c", "*"] := by decide
example : shunting_yard (insert_concatenation "a|bc*") = ["a", "b", "c", "*", ".", "|"] := by
  decide
example : buildSyntaxTree ["a", "b"] = some (RegexNode.mk "b" none none) := rfl
example : buildSyntaxTree ["*"] = none := rfl
example :
    thompson_from_ast (RegexNode.mk "a" none none) =
      some ⟨1, 2, [(1, [("a", 2)])]⟩ := rfl
example :
    (thompson_from_ast (RegexNode.mk "*" (some (RegexNode.mk "a" none none)) none)).map
        NFA.start = some 3 := rfl
example :
    ((buildSyntaxTree (shunting_yard (insert_concatenation (expand_plus_question "a*")))).bind
      thompson_from_ast).map (fun n => simulate_nfa n "aa") = some true := by decide
example :
    ((buildSyntaxTree (shunting_yard (insert_concatenation (expand_plus_question "a*")))).bind
      thompson_from_ast).map (fun n => simulate_nfa n "ab") = some false := by decide
example :
    ((buildSyntaxTree (shunting_yard (insert_concatenation (expand_plus_question "a*")))).bind
      thompson_from_ast).map (fun n => simulate_nfa n "ε") = some true := by decide

theorem digitChar_toNat (m : Nat) (h : m < 10) : (digitChar m).toNat = 48 + m := by
  interval_cases m <;> rfl

theorem natStrGo_append : ∀ (fuel n : Nat) (acc : List Char),
    natStrGo fuel n acc = natStrGo fuel n [] ++ acc := by
  intro fuel
  induction fuel with
  | zero => intro n acc; simp [natStrGo]
  | succ fuel ih =>
    intro n acc
    by_cases h : n < 10
    · simp [natStrGo, h]
    · simp only [natStrGo, if_neg h]
      rw [ih (n / 10) (digitChar (n % 10) :: acc), ih (n / 10) [digitChar (n % 10)]]
      simp

theorem natStrGo_congr : ∀ (n f g : Nat) (acc : List Char), n < f → n < g →
    natStrGo f n acc = natStrGo g n acc := by
  intro n
  induction n using Nat.strong_induction_on with
  | _ n ih =>
    intro f g acc hf hg
    match f, g with
    | f + 1, g + 1 =>
      by_cases h : n < 10
      · simp [natStrGo, h]
      · simp only [natStrGo, if_neg h]
        have hd : n / 10 < n := Nat.div_lt_self (by omega) (by omega)
        exact ih (n / 10) hd f g _ (by omega) (by omega)

theorem natStr_val : ∀ n : Nat, digitsVal (natStrGo (n + 1) n []) = n := by
  intro n
  induction n using Nat.strong_induction_on with
  | _ n ih =>
    by_cases h : n < 10
    · simp only [natStrGo, if_pos h, digitsVal, List.foldl_cons, List.foldl_nil]
      rw [digitChar_toNat n h]
      omega
    · have hd : n / 10 < n := Nat.div_lt_self (by omega) (by omega)
      have h1 : natStrGo (n + 1) n [] = natStrGo n (n / 10) [digitChar (n % 10)] := by
        simp [natStrGo, h]
      have h2 : natStrGo n (n / 10) [digitChar (n % 10)] =
          natStrGo (n / 10 + 1) (n / 10) [] ++ [digitChar (n % 10)] := by
        rw [natStrGo_append, natStrGo_congr (n / 10) n (n / 10 + 1) [] (by omega) (by omega)]
      have h3 : ∀ (l : List Char) (c : Char),
          digitsVal (l ++ [c]) = 10 * digitsVal l + (c.toNat - 48) := by
        intro l c; simp [digitsVal, List.foldl_append]
      rw [h1, h2, h3, ih (n / 10) hd, digitChar_toNat (n % 10) (by omega)]
      omega

theorem natStr_inj (m n : Nat) (h : natStr m = natStr n) : m = n := by
  have hd : natStrGo (m + 1) m [] = natStrGo (n + 1) n [] := congrArg String.data h
  have := congrArg digitsVal hd
  rwa [natStr_val, natStr_val] at this

theorem natStr_digits (n : Nat) (c : Char) (hc : c ∈ (natStr n).data) :
    48 ≤ c.toNat ∧ c.toNat ≤ 57 := by
  have key : ∀ (fuel n : Nat) (acc : List Char) (c : Char), c ∈ natStrGo fuel n acc →
      c ∈ acc ∨ (48 ≤ c.toNat ∧ c.toNat ≤ 57) := by
    intro fuel
    induction fuel with
    | zero => intro n acc c h; exact Or.inl (by simpa [natStrGo] using h)
    | succ fuel ih =>
      intro n acc c h
      by_cases hn : n < 10
      · simp only [natStrGo, if_pos hn] at h
        rcases List.mem_cons.mp h with rfl | h2
        · right; rw [digitChar_toNat n hn]; omega
        · exact Or.inl h2
      · simp only [natStrGo, if_neg hn] at h
        rcases ih (n / 10) _ c h with h2 | h2
        · rcases List.mem_cons.mp h2 with rfl | h3
          · right; rw [digitChar_toNat (n % 10) (by omega)]; omega
          · exact Or.inl h3
        · exact Or.inr h2
  rcases key (n + 1) n [] c hc with h | h
  · simp at h
  · exact h

theorem natStr_ne_nil (n : Nat) : (natStr n).data ≠ [] := by
  show natStrGo (n + 1) n [] ≠ []
  by_cases h : n < 10
  · simp [natStrGo, h]
  · have h1 : natStrGo (n + 1) n [] = natStrGo n (n / 10) [digitChar (n % 10)] := by
      simp [natStrGo, h]
    rw [h1, natStrGo_append]
    simp

theorem natStr_no_comma (n : Nat) : ',' ∉ (natStr n).data := by
  intro h
  have := natStr_digits n ',' h
  have hc : (','.toNat) = 44 := rfl
  omega

theorem append_comma_inj : ∀ (a1 a2 b1 b2 : List Char), ',' ∉ a1 → ',' ∉ a2 →
    a1 ++ ',' :: b1 = a2 ++ ',' :: b2 → a1 = a2 ∧ b1 = b2 := by
  intro a1
  induction a1 with
  | nil =>
    intro a2 b1 b2 _ h2 heq
    cases a2 with
    | nil => simpa using heq
    | cons x xs =>
      simp only [List.nil_append, List.cons_append, List.cons.injEq] at heq
      obtain ⟨hx, -⟩ := heq
      exact absurd (hx ▸ List.mem_cons_self x xs) h2
  | cons x xs ih =>
    intro a2 b1 b2 h1 h2 heq
    cases a2 with
    | nil =>
      simp only [List.nil_append, List.cons_append, List.cons.injEq] at heq
      obtain ⟨hx, -⟩ := heq
      exact absurd (hx.symm ▸ List.mem_cons_self x xs) h1
    | cons y ys =>
      simp only [List.cons_append, List.cons.injEq] at heq
      obtain ⟨hxy, htail⟩ := heq
      obtain ⟨ha, hb⟩ := ih ys b1 b2 (fun hc => h1 (List.mem_cons_of_mem _ hc))
        (fun hc => h2 (List.mem_cons_of_mem _ hc)) htail
      exact ⟨by rw [hxy, ha], hb⟩

theorem joinComma_cons (s : String) (t : List String) (h : t ≠ []) :
    (joinComma (s :: t)).data = s.data ++ ',' :: (joinComma t).data := by
  cases t with
  | nil => exact absurd rfl h
  | cons u us =>
    show (s ++ "," ++ joinComma (u :: us)).data = _
    simp [String.data_append]

theorem joinComma_inj : ∀ (l1 l2 : List String),
    (∀ s ∈ l1, s.data ≠ [] ∧ ',' ∉ s.data) →
    (∀ s ∈ l2, s.data ≠ [] ∧ ',' ∉ s.data) →
    joinComma l1 = joinComma l2 → l1 = l2 := by
  intro l1
  induction l1 with
  | nil =>
    intro l2 _ h2 heq
    cases l2 with
    | nil => rfl
    | cons s t =>
      exfalso
      have hd := congrArg String.data heq
      cases t with
      | nil =>
        simp only [joinComma] at hd
        exact (h2 s (by simp)).1 (by simpa using hd.symm)
      | cons u us =>
        rw [joinComma_cons s (u :: us) (by simp)] at hd
        simp only [joinComma] at hd
        have : ([] : List Char) = s.data ++ ',' :: (joinComma (u :: us)).data := by
          simp at hd
        exact absurd this.symm (by simp)
  | cons s t ih =>
    intro l2 h1 h2 heq
    cases l2 with
    | nil =>
      exfalso
      have hd := congrArg String.data heq
      cases t with
      | nil =>
        simp only [joinComma] at hd
        exact (h1 s (by simp)).1 (by simpa using hd)
      | cons u us =>
        rw [joinComma_cons s (u :: us) (by simp)] at hd
        simp only [joinComma] at hd
        have : s.data ++ ',' :: (joinComma (u :: us)).data = ([] : List Char) := by
          simp at hd
        exact absurd this (by simp)
    | cons u v =>
      cases t with
      | nil =>
        cases v with
        | nil =>
          have : s = u := by simpa [joinComma] using heq
          rw [this]
        | cons w ws =>
          exfalso
          have hd := congrArg String.data heq
          rw [joinComma_cons u (w :: ws) (by simp)] at hd
          simp only [joinComma] at hd
          have : ',' ∈ s.data := by rw [hd]; simp
          exact (h1 s (by simp)).2 this
      | cons w ws =>
        cases v with
        | nil =>
          exfalso
          have hd := congrArg String.data heq
          rw [joinComma_cons s (w :: ws) (by simp)] at hd
          simp only [joinComma] at hd
          have : ',' ∈ u.data := by rw [← hd]; simp
          exact (h2 u (by simp)).2 this
        | cons x xs =>
          have hd := congrArg String.data heq
          rw [joinComma_cons s (w :: ws) (by simp),
            joinComma_cons u (x :: xs) (by simp)] at hd
          obtain ⟨hsu, hrest⟩ := append_comma_inj _ _ _ _ (h1 s (by simp)).2
            (h2 u (by simp)).2 hd
          have hs : s = u := by
            cases s with
            | mk d1 =>
              cases u with
              | mk d2 => exact congrArg String.mk hsu
          have hjoin : joinComma (w :: ws) = joinComma (x :: xs) := by
            cases hj1 : joinComma (w :: ws) with
            | mk d1 =>
              cases hj2 : joinComma (x :: xs) with
              | mk d2 =>
                rw [hj1, hj2] at hrest
                exact congrArg String.mk hrest
          have ht := ih (x :: xs) (fun a ha => h1 a (List.mem_cons_of_mem _ ha))
            (fun a ha => h2 a (List.mem_cons_of_mem _ ha)) hjoin
          rw [hs, ht]

theorem canonSet_sorted (l : List Nat) : (canonSet l).Sorted (· ≤ ·) :=
  List.sorted_insertionSort _ _

theorem canonSet_nodup (l : List Nat) : (canonSet l).Nodup :=
  ((List.perm_insertionSort _ _).nodup_iff).mpr (List.nodup_dedup l)

theorem canonSet_idem (l : List Nat) : canonSet (canonSet l) = canonSet l := by
  show List.insertionSort (· ≤ ·) (canonSet l).dedup = canonSet l
  rw [List.dedup_eq_self.mpr (canonSet_nodup l)]
  exact List.Sorted.insertionSort_eq (canonSet_sorted l)

theorem mem_canonSet (x : Nat) (l : List Nat) : x ∈ canonSet l ↔ x ∈ l := by
  unfold canonSet
  rw [(List.perm_insertionSort _ _).mem_iff, List.mem_dedup]

theorem canonSet_eq_nil (l : List Nat) : canonSet l = [] ↔ l = [] := by
  constructor
  · intro h
    rw [List.eq_nil_iff_forall_not_mem]
    intro a ha
    have := (mem_canonSet a l).mpr ha
    simp [h] at this
  · intro h; rw [h]; rfl

theorem format_canon (S : List Nat) :
    format_state_set (canonSet S) = format_state_set S := by
  unfold format_state_set
  rw [canonSet_idem]

theorem format_of_canon_single (a : Nat) (S : List Nat) (h : canonSet S = [a]) :
    format_state_set S = natStr a := by
  unfold format_state_set
  rw [h]

theorem format_of_canon_multi (a b : Nat) (t : List Nat) (S : List Nat)
    (h : canonSet S = a :: b :: t) :
    format_state_set S = "\x7b" ++ joinComma ((a :: b :: t).map natStr) ++ "\x7d" := by
  unfold format_state_set
  rw [h]

theorem format_ne_marker (S : List Nat) (h : S ≠ []) : format_state_set S ≠ "∅" := by
  rcases hc : canonSet S with _ | ⟨a, _ | ⟨b, t⟩⟩
  · exact absurd ((canonSet_eq_nil S).mp hc) h
  · rw [format_of_canon_single a S hc]
    intro he
    have hd := congrArg String.data he
    have hmem : '∅' ∈ (natStr a).data := by
      rw [hd]; exact List.mem_singleton_self _
    have hdig := natStr_digits a '∅' hmem
    have h8 : ('∅').toNat = 8709 := rfl
    omega
  · rw [format_of_canon_multi a b t S hc]
    intro he
    have hd := congrArg String.data he
    rw [String.data_append, String.data_append] at hd
    simp at hd

theorem map_natStr_inj (l1 l2 : List Nat) (h : l1.map natStr = l2.map natStr) :
    l1 = l2 := by
  have hinj : Function.Injective natStr := fun a b => natStr_inj a b
  exact (List.map_injective_iff.mpr hinj) h

theorem format_inj (S1 S2 : List Nat) (h1 : canonSet S1 = S1) (h2 : canonSet S2 = S2)
    (he : format_state_set S1 = format_state_set S2) : S1 = S2 := by
  have good : ∀ (l : List Nat), ∀ s ∈ l.map natStr, s.data ≠ [] ∧ ',' ∉ s.data := by
    intro l s hs
    obtain ⟨n, _, rfl⟩ := List.mem_map.mp hs
    exact ⟨natStr_ne_nil n, natStr_no_comma n⟩
  rcases hs1 : S1 with _ | ⟨a, _ | ⟨a2, t1⟩⟩ <;> rcases hs2 : S2 with _ | ⟨b, _ | ⟨b2, t2⟩⟩
  · rfl
  · -- [] vs [b]
    rw [hs1] at he h1; rw [hs2] at he h2
    rw [format_of_canon_single b _ h2] at he
    exfalso
    have hd := congrArg String.data he.symm
    have hmem : '∅' ∈ (natStr b).data := by rw [hd]; exact List.mem_singleton_self _
    have hdig := natStr_digits b '∅' hmem
    have h8 : ('∅').toNat = 8709 := rfl
    omega
  · -- [] vs multi
    rw [hs1] at he h1; rw [hs2] at he h2
    rw [format_of_canon_multi b b2 t2 _ h2] at he
    exfalso
    rw [show format_state_set [] = "∅" from rfl] at he
    have hd := congrArg String.data he
    rw [String.data_append, String.data_append] at hd
    simp at hd
  · -- [a] vs []
    rw [hs1] at he h1; rw [hs2] at he h2
    rw [format_of_canon_single a _ h1] at he
    exfalso
    have hd := congrArg String.data he
    have hmem : '∅' ∈ (natStr a).data := by rw [hd]; exact List.mem_singleton_self _
    have hdig := natStr_digits a '∅' hmem
    have h8 : ('∅').toNat = 8709 := rfl
    omega
  · -- [a] vs [b]
    rw [hs1] at he h1; rw [hs2] at he h2
    rw [format_of_canon_single a _ h1, format_of_canon_single b _ h2] at he
    rw [natStr_inj a b he]
  · -- [a] vs multi
    rw [hs1] at he h1; rw [hs2] at he h2
    rw [format_of_canon_single a _ h1, format_of_canon_multi b b2 t2 _ h2] at he
    exfalso
    have hd := congrArg String.data he
    rw [String.data_append, String.data_append] at hd
    have hmem : '\x7b' ∈ (natStr a).data := by rw [hd]; simp
    have hdig := natStr_digits a '\x7b' hmem
    have h7 : ('\x7b').toNat = 123 := rfl
    omega
  · -- multi vs []
    rw [hs1] at he h1; rw [hs2] at he h2
    rw [format_of_canon_multi a a2 t1 _ h1] at he
    exfalso
    rw [show format_state_set [] = "∅" from rfl] at he
    have hd := congrArg String.data he
    rw [String.data_append, String.data_append] at hd
    simp at hd
  · -- multi vs [b]
    rw [hs1] at he h1; rw [hs2] at he h2
    rw [format_of_canon_multi a a2 t1 _ h1, format_of_canon_single b _ h2] at he
    exfalso
    have hd := congrArg String.data he.symm
    rw [String.data_append, String.data_append] at hd
    have hmem : '\x7b' ∈ (natStr b).data := by rw [hd]; simp
    have hdig := natStr_digits b '\x7b' hmem
    have h7 : ('\x7b').toNat = 123 := rfl
    omega
  · -- multi vs multi
    rw [hs1] at he h1; rw [hs2] at he h2
    rw [format_of_canon_multi a a2 t1 _ h1, format_of_canon_multi b b2 t2 _ h2] at he
    have hd := congrArg String.data he
    rw [String.data_append, String.data_append, String.data_append, String.data_append] at hd
    have hd2 : ('\x7b' :: ((joinComma ((a :: a2 :: t1).map natStr)).data ++ ('\x7d' :: []))) =
        ('\x7b' :: ((joinComma ((b :: b2 :: t2).map natStr)).data ++ ('\x7d' :: []))) := by
      simpa using hd
    have hd4 : (joinComma ((a :: a2 :: t1).map natStr)).data ++ ['\x7d'] =
        (joinComma ((b :: b2 :: t2).map natStr)).data ++ ['\x7d'] := by
      have := hd2
      simp only [List.cons.injEq] at this
      simpa using this.2
    have hd5 := congrArg List.reverse hd4
    rw [List.reverse_append, List.reverse_append] at hd5
    simp only [List.append_cancel_left_eq] at hd5
    have hd6 : (joinComma ((a :: a2 :: t1).map natStr)).data =
        (joinComma ((b :: b2 :: t2).map natStr)).data :=
      List.reverse_injective hd5
    have hj : joinComma ((a :: a2 :: t1).map natStr) = joinComma ((b :: b2 :: t2).map natStr) := by
      cases hx : joinComma ((a :: a2 :: t1).map natStr) with
      | mk d1 =>
        cases hy : joinComma ((b :: b2 :: t2).map natStr) with
        | mk d2 =>
          rw [hx, hy] at hd6
          exact congrArg String.mk hd6
    have hmaps := joinComma_inj _ _ (good _) (good _) hj
    exact map_natStr_inj _ _ hmaps

theorem mem_addToSetS (l : List String) (s x : String) :
    x ∈ addToSetS l s ↔ x ∈ l ∨ x = s := by
  unfold addToSetS
  by_cases h : s ∈ l
  · rw [if_pos h]
    constructor
    · exact Or.inl
    · rintro (h1 | rfl)
      · exact h1
      · exact h
  · rw [if_neg h]
    simp

theorem reachLoop_seen_mono [DecidableEq α] (succ : α → List α) :
    ∀ (fuel : Nat) (queue seen order : List α) (x : α), x ∈ seen →
      x ∈ (reachLoop succ fuel queue seen order).2 := by
  intro fuel
  induction fuel with
  | zero => intro q seen order x hx; simpa [reachLoop] using hx
  | succ fuel ih =>
    intro q seen order x hx
    cases q with
    | nil => simpa [reachLoop] using hx
    | cons s rest =>
      simp only [reachLoop, pushFresh_eq]
      exact ih _ _ _ x (List.mem_append_left _ hx)

theorem mem_epsilon_closure_self (x : Nat) (S : List Nat) (T : Trans) (h : x ∈ S) :
    x ∈ epsilon_closure S T := by
  unfold epsilon_closure
  exact reachLoop_seen_mono _ _ _ _ _ x (List.mem_dedup.mpr h)

theorem nfaMove_eq_nil_iff (S : List Nat) (sym : String) (T : Trans) :
    nfaMove S sym T = [] ↔
      ∀ s ∈ S, ((lookupD T s).filter (fun e => e.1 == sym)).map Prod.snd = [] := by
  unfold nfaMove
  rw [List.flatten_eq_nil_iff]
  constructor
  · intro h s hs
    exact h _ (List.mem_map_of_mem _ hs)
  · intro h l hl
    obtain ⟨s, hs, rfl⟩ := List.mem_map.mp hl
    exact h s hs

theorem nfaMove_canon_nil (S : List Nat) (sym : String) (T : Trans) :
    nfaMove (canonSet S) sym T = [] ↔ nfaMove S sym T = [] := by
  rw [nfaMove_eq_nil_iff, nfaMove_eq_nil_iff]
  constructor
  · intro h s hs
    exact h s ((mem_canonSet s S).mpr hs)
  · intro h s hs
    exact h s ((mem_canonSet s S).mp hs)

theorem lookupS_update_self (t : List (String × List (String × String)))
    (a : String) (g : List (String × String) → List (String × String)) :
    lookupS (t.map (fun p => if p.1 == a then (p.1, g p.2) else p)) a =
      (match t.find? (fun p => p.1 == a) with
       | some p => g p.2
       | none => []) := by
  unfold lookupS
  rw [List.find?_map]
  have hpf : ((fun p : String × List (String × String) => p.1 == a) ∘
      (fun p : String × List (String × String) =>
        if p.1 == a then (p.1, g p.2) else p)) =
      (fun p : String × List (String × String) => p.1 == a) := by
    funext p
    by_cases h : p.1 = a <;> simp [h]
  rw [hpf]
  match hf : t.find? (fun p => p.1 == a) with
  | none => rw [hf]; simp
  | some p =>
    have hp := List.find?_some hf
    rw [hf]
    simp only [beq_iff_eq] at hp
    simp [Option.map_some', hp]

theorem lookupS_update_other (t : List (String × List (String × String)))
    (a q : String) (g : List (String × String) → List (String × String)) (hq : q ≠ a) :
    lookupS (t.map (fun p => if p.1 == a then (p.1, g p.2) else p)) q = lookupS t q := by
  unfold lookupS
  rw [List.find?_map]
  have hpf : ((fun p : String × List (String × String) => p.1 == q) ∘
      (fun p : String × List (String × String) =>
        if p.1 == a then (p.1, g p.2) else p)) =
      (fun p : String × List (String × String) => p.1 == q) := by
    funext p
    by_cases h : p.1 = a <;> simp [h]
  rw [hpf]
  match hf : t.find? (fun p => p.1 == q) with
  | none => rw [hf]; simp
  | some p =>
    have hp := List.find?_some hf
    have hpa : ¬ p.1 = a := by
      simp only [beq_iff_eq] at hp
      rw [hp]
      exact hq
    rw [hf]
    simp [Option.map_some', hpa]

theorem lookupS_append_one (t : List (String × List (String × String)))
    (a q : String) (v : List (String × String)) :
    lookupS (t ++ [(a, v)]) q =
      if (t.find? (fun p => p.1 == q)).isSome then lookupS t q
      else if q = a then v else [] := by
  unfold lookupS
  rw [List.find?_append]
  match hf : t.find? (fun p => p.1 == q) with
  | some p => rw [hf]; simp
  | none =>
    rw [hf]
    by_cases hqa : q = a
    · subst hqa
      simp
    · have h2 : ((a, v).1 == q) = false := by
        simpa using fun hc => hqa hc.symm
      simp [h2, hqa]

theorem setInner_find_self (lst : List (String × String)) (s b : String) :
    ((setInner lst s b).find? (fun e => e.1 == s)).map Prod.snd = some b := by
  unfold setInner
  by_cases hex : lst.any (fun e => e.1 == s)
  · rw [if_pos hex, List.find?_map]
    have hpf : ((fun e : String × String => e.1 == s) ∘
        (fun e : String × String => if e.1 == s then (e.1, b) else e)) =
        (fun e : String × String => e.1 == s) := by
      funext e
      by_cases h : e.1 = s <;> simp [h]
    rw [hpf]
    have hs : (lst.find? (fun e => e.1 == s)).isSome := by
      rw [List.find?_isSome]
      simpa [List.any_eq_true] using hex
    match hf : lst.find? (fun e => e.1 == s) with
    | none => rw [hf] at hs; simp at hs
    | some e =>
      have he := List.find?_some hf
      simp only [beq_iff_eq] at he
      rw [hf]
      simp [he]
  · rw [if_neg hex, List.find?_append]
    have hnone : lst.find? (fun e => e.1 == s) = none := by
      rw [List.find?_eq_none]
      intro x hx hc
      exact hex (List.any_eq_true.mpr ⟨x, hx, hc⟩)
    rw [hnone]
    simp

theorem setInner_find_other (lst : List (String × String)) (s b y : String) (hy : y ≠ s) :
    (setInner lst s b).find? (fun e => e.1 == y) = lst.find? (fun e => e.1 == y) := by
  unfold setInner
  by_cases hex : lst.any (fun e => e.1 == s)
  · rw [if_pos hex, List.find?_map]
    have hpf : ((fun e : String × String => e.1 == y) ∘
        (fun e : String × String => if e.1 == s then (e.1, b) else e)) =
        (fun e : String × String => e.1 == y) := by
      funext e
      by_cases h : e.1 = s <;> simp [h]
    rw [hpf]
    match hf : lst.find? (fun e => e.1 == y) with
    | none => rw [hf]; rfl
    | some e =>
      have he := List.find?_some hf
      simp only [beq_iff_eq] at he
      have hes : ¬ e.1 = s := by rw [he]; exact hy
      rw [hf]
      simp [Option.map_some', hes]
  · rw [if_neg hex, List.find?_append]
    match hf : lst.find? (fun e => e.1 == y) with
    | some e => rw [hf]; simp
    | none =>
      rw [hf]
      have h2 : ((s, b).1 == y) = false := by
        simpa using fun hc => hy hc.symm
      simp [h2]

theorem get_transition_set_accept (d : DFA) (as : List String) (q y : String) :
    DFA.get_transition { d with acceptStates := as } q y = DFA.get_transition d q y := rfl

theorem get_transition_add_state (d : DFA) (n q y : String) :
    DFA.get_transition (DFA.add_state d n) q y = DFA.get_transition d q y := by
  unfold DFA.get_transition DFA.add_state
  dsimp only
  by_cases hex : d.transitions.any (fun p => p.1 == n)
  · rw [if_pos hex]
  · rw [if_neg hex, lookupS_append_one]
    by_cases hf : (d.transitions.find? (fun p => p.1 == q)).isSome
    · rw [if_pos hf]
    · rw [if_neg hf]
      have hnone : d.transitions.find? (fun p => p.1 == q) = none :=
        Option.not_isSome_iff_eq_none.mp hf
      have hl : lookupS d.transitions q = [] := by
        unfold lookupS
        rw [hnone]
      rw [hl]
      by_cases hqn : q = n
      · rw [if_pos hqn]
      · rw [if_neg hqn]

theorem lookupS_update_setInner (t : List (String × List (String × String)))
    (a s b : String) :
    lookupS (t.map (fun p => if p.1 == a then (p.1, setInner p.2 s b) else p)) a =
      (match t.find? (fun p => p.1 == a) with
       | some p => setInner p.2 s b
       | none => []) :=
  lookupS_update_self t a (fun x => setInner x s b)

theorem lookupS_update_setInner_other (t : List (String × List (String × String)))
    (a q s b : String) (hq : q ≠ a) :
    lookupS (t.map (fun p => if p.1 == a then (p.1, setInner p.2 s b) else p)) q =
      lookupS t q :=
  lookupS_update_other t a q (fun x => setInner x s b) hq

theorem get_transition_add_cases (d : DFA) (a s b q y q' : String)
    (h : DFA.get_transition (DFA.add_transition d a s b) q y = some q') :
    (q = a ∧ y = s ∧ q' = b) ∨ DFA.get_transition d q y = some q' := by
  unfold DFA.get_transition DFA.add_transition at h
  dsimp only at h
  by_cases hqa : q = a
  · subst hqa
    by_cases hex : d.transitions.any (fun p => p.1 == q)
    · rw [if_pos hex, lookupS_update_setInner] at h
      match hf : d.transitions.find? (fun p => p.1 == q) with
      | none => rw [hf] at h; simp at h
      | some p =>
        rw [hf] at h
        by_cases hys : y = s
        · subst hys
          rw [setInner_find_self] at h
          exact Or.inl ⟨rfl, rfl, (Option.some.injEq _ _ ▸ h).symm⟩
        · rw [setInner_find_other p.2 s b y hys] at h
          refine Or.inr ?_
          unfold DFA.get_transition lookupS
          rw [hf]
          exact h
    · rw [if_neg hex, lookupS_append_one] at h
      have hnone : d.transitions.find? (fun p => p.1 == q) = none := by
        rw [List.find?_eq_none]
        intro x hx hc
        exact hex (List.any_eq_true.mpr ⟨x, hx, hc⟩)
      rw [hnone] at h
      simp only [Option.isSome_none, Bool.false_eq_true, if_false, if_pos rfl] at h
      by_cases hys : y = s
      · subst hys
        simp at h
        exact Or.inl ⟨rfl, rfl, h.symm⟩
      · have h2 : ((s, b).1 == y) = false := by
          simpa using fun hc => hys hc.symm
        simp [List.find?, h2] at h
  · by_cases hex : d.transitions.any (fun p => p.1 == a)
    · rw [if_pos hex, lookupS_update_setInner_other d.transitions a q s b hqa] at h
      exact Or.inr h
    · rw [if_neg hex, lookupS_append_one] at h
      by_cases hf : (d.transitions.find? (fun p => p.1 == q)).isSome
      · rw [if_pos hf] at h
        exact Or.inr h
      · rw [if_neg hf, if_neg hqa] at h
        simp at h

theorem no_label_collision (pl : List (List Nat × String)) (nxt : List Nat)
    (hcanon : ∀ p ∈ pl, canonSet p.1 = p.1 ∧ p.1 ≠ [] ∧ p.2 = format_state_set p.1)
    (hnone : pl.find? (fun p => p.1 == canonSet nxt) = none)
    (pr : List Nat × String) (hpr : pr ∈ pl)
    (hname : pr.2 = format_state_set nxt) : False := by
  obtain ⟨hc, hne, hfmt⟩ := hcanon pr hpr
  have hfe : format_state_set pr.1 = format_state_set (canonSet nxt) := by
    rw [← hfmt, hname, format_canon]
  have hkey : pr.1 = canonSet nxt :=
    format_inj pr.1 (canonSet nxt) hc (canonSet_idem nxt) hfe
  have := List.find?_eq_none.mp hnone pr hpr
  simp [hkey] at this

theorem subsetSymStep_inv (nfa : NFA) (cur : String × List Nat) (acc : SubsetState)
    (sym : String) (hinv : SubsetInv nfa acc)
    (hcur : (canonSet cur.2, cur.1) ∈ acc.processed) :
    SubsetInv nfa (subsetSymStep nfa cur acc sym) ∧
      ∀ x ∈ acc.processed, x ∈ (subsetSymStep nfa cur acc sym).processed := by
  simp only [subsetSymStep]
  split
  · exact ⟨hinv, fun x hx => hx⟩
  · next hmv =>
    have hmv2 : move_dfa (canonSet cur.2) sym nfa ≠ [] := fun h =>
      hmv ((nfaMove_canon_nil cur.2 sym nfa.transitions).mp h)
    split
    · next p hf =>
      have hpmem : p ∈ acc.processed := List.mem_of_find?_eq_some hf
      refine ⟨?_, fun x hx => hx⟩
      refine
        { proc_canon := hinv.proc_canon
          states_proc := ?_
          accept_iff := ?_
          accept_states := ?_
          queue_proc := hinv.queue_proc
          trans_src := ?_ }
      · intro l hl
        simp only [DFA.add_transition] at hl
        simp only [mem_addToSetS] at hl
        rcases hl with (hl | rfl) | rfl
        · exact hinv.states_proc l hl
        · exact ⟨(canonSet cur.2, cur.1), hcur, rfl⟩
        · exact ⟨p, hpmem, rfl⟩
      · intro pr hpr
        exact hinv.accept_iff pr hpr
      · intro l hl
        simp only [DFA.add_transition, mem_addToSetS]
        exact Or.inl (Or.inl (hinv.accept_states l hl))
      · intro q y q' h
        rcases get_transition_add_cases acc.dfa cur.1 sym p.2 q y q' h with
          ⟨rfl, rfl, _⟩ | hold
        · exact ⟨canonSet cur.2, hcur, hmv2⟩
        · exact hinv.trans_src q y q' hold
    · next hf =>
      set nxt := epsilon_closure_dfa (move_dfa cur.2 sym nfa) nfa with hnxt
      set name := format_state_set nxt with hname
      set key := canonSet nxt with hkey
      have hne : nxt ≠ [] := by
        obtain ⟨x, hx⟩ := List.exists_mem_of_ne_nil _ hmv
        exact List.ne_nil_of_mem (mem_epsilon_closure_self x _ _ hx)
      have hkeyne : key ≠ [] := fun h => hne ((canonSet_eq_nil nxt).mp (hkey ▸ h))
      have hkc : canonSet key = key := by rw [hkey]; exact canonSet_idem nxt
      have hnamekey : name = format_state_set key := by
        rw [hkey, hname]; exact (format_canon nxt).symm
      have hfresh : ∀ pr ∈ acc.processed, pr.2 ≠ name := fun pr hpr h =>
        no_label_collision acc.processed nxt hinv.proc_canon hf pr hpr (by rw [h, hname])
      have hnotacc : name ∉ acc.dfa.acceptStates := fun h => by
        obtain ⟨pr, hpr, hpr2⟩ := hinv.states_proc name (hinv.accept_states name h)
        exact hfresh pr hpr hpr2
      refine ⟨?_, fun x hx => List.mem_append_left _ hx⟩
      by_cases hacc : nfa.accept ∈ nxt
      · rw [if_pos hacc]
        refine
          { proc_canon := ?_
            states_proc := ?_
            accept_iff := ?_
            accept_states := ?_
            queue_proc := ?_
            trans_src := ?_ }
        · intro pr hpr
          rcases List.mem_append.mp hpr with h | h
          · exact hinv.proc_canon pr h
          · rw [List.mem_singleton] at h
            subst h
            exact ⟨hkc, hkeyne, hnamekey⟩
        · intro l hl
          simp only [DFA.add_transition, DFA.add_state] at hl
          simp only [mem_addToSetS] at hl
          rcases hl with ((hl | rfl) | rfl) | rfl
          · obtain ⟨pr, hpr, hpr2⟩ := hinv.states_proc l hl
            exact ⟨pr, List.mem_append_left _ hpr, hpr2⟩
          · exact ⟨(key, name), List.mem_append_right _ (List.mem_singleton.mpr rfl), rfl⟩
          · exact ⟨(canonSet cur.2, cur.1), List.mem_append_left _ hcur, rfl⟩
          · exact ⟨(key, name), List.mem_append_right _ (List.mem_singleton.mpr rfl), rfl⟩
        · intro pr hpr
          rcases List.mem_append.mp hpr with h | h
          · have hiff := hinv.accept_iff pr h
            simp only [DFA.add_transition, DFA.add_state]
            simp only [mem_addToSetS]
            constructor
            · intro hm
              rcases hm with hm | hm
              · exact hiff.mp hm
              · exact absurd hm (hfresh pr h)
            · intro hm
              exact Or.inl (hiff.mpr hm)
          · rw [List.mem_singleton] at h
            subst h
            simp only [DFA.add_transition, DFA.add_state]
            simp only [mem_addToSetS]
            refine iff_of_true (Or.inr trivial) ?_
            exact (hkey ▸ (mem_canonSet nfa.accept nxt).mpr hacc)
        · intro l hl
          simp only [DFA.add_transition, DFA.add_state] at hl ⊢
          simp only [mem_addToSetS] at hl ⊢
          rcases hl with hl | rfl
          · exact Or.inl (Or.inl (Or.inl (hinv.accept_states l hl)))
          · exact Or.inl (Or.inl (Or.inr rfl))
        · intro q hq
          rcases List.mem_append.mp hq with h | h
          · exact List.mem_append_left _ (hinv.queue_proc q h)
          · rw [List.mem_singleton] at h
            subst h
            exact List.mem_append_right _ (List.mem_singleton.mpr (by rw [hkey]))
        · intro q y q' h
          rcases get_transition_add_cases _ cur.1 sym name q y q' h with
            ⟨rfl, rfl, _⟩ | hold
          · exact ⟨canonSet cur.2, List.mem_append_left _ hcur, hmv2⟩
          · have h2 : DFA.get_transition (acc.dfa.add_state name) q y = some q' := hold
            rw [get_transition_add_state] at h2
            obtain ⟨S, hS, hmvS⟩ := hinv.trans_src q y q' h2
            exact ⟨S, List.mem_append_left _ hS, hmvS⟩
      · rw [if_neg hacc]
        refine
          { proc_canon := ?_
            states_proc := ?_
            accept_iff := ?_
            accept_states := ?_
            queue_proc := ?_
            trans_src := ?_ }
        · intro pr hpr
          rcases List.mem_append.mp hpr with h | h
          · exact hinv.proc_canon pr h
          · rw [List.mem_singleton] at h
            subst h
            exact ⟨hkc, hkeyne, hnamekey⟩
        · intro l hl
          simp only [DFA.add_transition, DFA.add_state] at hl
          simp only [mem_addToSetS] at hl
          rcases hl with ((hl | rfl) | rfl) | rfl
          · obtain ⟨pr, hpr, hpr2⟩ := hinv.states_proc l hl
            exact ⟨pr, List.mem_append_left _ hpr, hpr2⟩
          · exact ⟨(key, name), List.mem_append_right _ (List.mem_singleton.mpr rfl), rfl⟩
          · exact ⟨(canonSet cur.2, cur.1), List.mem_append_left _ hcur, rfl⟩
          · exact ⟨(key, name), List.mem_append_right _ (List.mem_singleton.mpr rfl), rfl⟩
        · intro pr hpr
          rcases List.mem_append.mp hpr with h | h
          · exact hinv.accept_iff pr h
          · rw [List.mem_singleton] at h
            subst h
            refine iff_of_false hnotacc ?_
            intro hm
            exact hacc ((mem_canonSet nfa.accept nxt).mp (hkey ▸ hm))
        · intro l hl
          simp only [DFA.add_transition, DFA.add_state] at hl ⊢
          simp only [mem_addToSetS] at hl ⊢
          exact Or.inl (Or.inl (Or.inl (hinv.accept_states l hl)))
        · intro q hq
          rcases List.mem_append.mp hq with h | h
          · exact List.mem_append_left _ (hinv.queue_proc q h)
          · rw [List.mem_singleton] at h
            subst h
            exact List.mem_append_right _ (List.mem_singleton.mpr (by rw [hkey]))
        · intro q y q' h
          rcases get_transition_add_cases _ cur.1 sym name q y q' h with
            ⟨rfl, rfl, _⟩ | hold
          · exact ⟨canonSet cur.2, List.mem_append_left _ hcur, hmv2⟩
          · have h2 : DFA.get_transition (acc.dfa.add_state name) q y = some q' := hold
            rw [get_transition_add_state] at h2
            obtain ⟨S, hS, hmvS⟩ := hinv.trans_src q y q' h2
            exact ⟨S, List.mem_append_left _ hS, hmvS⟩

theorem subsetFold_inv (nfa : NFA) (cur : String × List Nat) (alphabet : List String) :
    ∀ (acc : SubsetState), SubsetInv nfa acc →
      (canonSet cur.2, cur.1) ∈ acc.processed →
      SubsetInv nfa (alphabet.foldl (subsetSymStep nfa cur) acc) ∧
        ∀ x ∈ acc.processed, x ∈ (alphabet.foldl (subsetSymStep nfa cur) acc).processed := by
  induction alphabet with
  | nil => exact fun acc hinv _ => ⟨hinv, fun x hx => hx⟩
  | cons a as ih =>
    intro acc hinv hcur
    obtain ⟨h1, h2⟩ := subsetSymStep_inv nfa cur acc a hinv hcur
    obtain ⟨h3, h4⟩ := ih (subsetSymStep nfa cur acc a) h1 (h2 _ hcur)
    exact ⟨h3, fun x hx => h4 x (h2 x hx)⟩

theorem subsetLoop_inv (nfa : NFA) (alphabet : List String) :
    ∀ (fuel : Nat) (st : SubsetState), SubsetInv nfa st →
      SubsetInv nfa (subsetLoop nfa alphabet fuel st) ∧
        ∀ x ∈ st.processed, x ∈ (subsetLoop nfa alphabet fuel st).processed := by
  intro fuel
  induction fuel with
  | zero => exact fun st hinv => ⟨hinv, fun x hx => hx⟩
  | succ n ih =>
    intro st hinv
    rw [subsetLoop]
    split
    · exact ⟨hinv, fun x hx => hx⟩
    · next cur rest hq =>
      have hst2 : SubsetInv nfa { st with queue := rest } :=
        { proc_canon := hinv.proc_canon
          states_proc := hinv.states_proc
          accept_iff := hinv.accept_iff
          accept_states := hinv.accept_states
          queue_proc := fun q hqm =>
            hinv.queue_proc q (by rw [hq]; exact List.mem_cons_of_mem _ hqm)
          trans_src := hinv.trans_src }
      have hcur : (canonSet cur.2, cur.1) ∈ ({ st with queue := rest } : SubsetState).processed :=
        hinv.queue_proc cur (by rw [hq]; exact List.mem_cons_self cur rest)
      obtain ⟨h1, h2⟩ := subsetFold_inv nfa cur alphabet _ hst2 hcur
      obtain ⟨h3, h4⟩ := ih _ h1
      exact ⟨h3, fun x hx => h4 x (h2 x hx)⟩

theorem get_transition_single_empty (d : DFA) (a q sym : String)
    (h : d.transitions = [(a, [])]) : DFA.get_transition d q sym = none := by
  unfold DFA.get_transition lookupS
  rw [h]
  cases hab : ((a, ([] : List (String × String))).1 == q) <;>
    simp [List.find?, hab]

theorem subsetRun_inv (nfa : NFA) :
    SubsetInv nfa (subsetRun nfa) ∧
      (canonSet (epsilon_closure_dfa [nfa.start] nfa),
        format_state_set (epsilon_closure_dfa [nfa.start] nfa)) ∈ (subsetRun nfa).processed := by
  simp only [subsetRun]
  set S0 := epsilon_closure_dfa [nfa.start] nfa with hS0
  set name0 := format_state_set S0 with hname0
  have hS0ne : S0 ≠ [] :=
    List.ne_nil_of_mem (mem_epsilon_closure_self nfa.start _ _ (List.mem_singleton.mpr rfl))
  have hinit : SubsetInv nfa
      { dfa := if nfa.accept ∈ S0 then
          { (DFA.add_state { emptyDFA with alphabet := nfaAlphabet nfa, start := name0 } name0)
              with acceptStates := addToSetS (DFA.add_state { emptyDFA with
                alphabet := nfaAlphabet nfa, start := name0 } name0).acceptStates name0 }
        else DFA.add_state { emptyDFA with alphabet := nfaAlphabet nfa, start := name0 } name0,
        processed := [(canonSet S0, name0)],
        queue := [(name0, S0)] } := by
    have hd0s : (DFA.add_state { emptyDFA with alphabet := nfaAlphabet nfa, start := name0 } name0).states = [name0] := by
      simp [DFA.add_state, emptyDFA, addToSetS]
    have hd0t : (DFA.add_state { emptyDFA with alphabet := nfaAlphabet nfa, start := name0 } name0).transitions = [(name0, [])] := by
      simp [DFA.add_state, emptyDFA]
    have hd0a : (DFA.add_state { emptyDFA with alphabet := nfaAlphabet nfa, start := name0 } name0).acceptStates = [] := rfl
    have hpc : ∀ p ∈ [(canonSet S0, name0)],
        canonSet p.1 = p.1 ∧ p.1 ≠ [] ∧ p.2 = format_state_set p.1 := by
      intro pr hpr
      rw [List.mem_singleton] at hpr
      subst hpr
      refine ⟨canonSet_idem S0, fun h => hS0ne ((canonSet_eq_nil S0).mp h), ?_⟩
      rw [hname0]
      exact (format_canon S0).symm
    by_cases hacc : nfa.accept ∈ S0
    · rw [if_pos hacc]
      refine
        { proc_canon := hpc
          states_proc := ?_
          accept_iff := ?_
          accept_states := ?_
          queue_proc := ?_
          trans_src := ?_ }
      · intro l hl
        dsimp only at hl
        rw [hd0s, List.mem_singleton] at hl
        exact ⟨(canonSet S0, name0), List.mem_singleton.mpr rfl, hl.symm⟩
      · intro pr hpr
        rw [List.mem_singleton] at hpr
        subst hpr
        dsimp only
        rw [hd0a]
        refine iff_of_true ?_ ((mem_canonSet nfa.accept S0).mpr hacc)
        simp [addToSetS]
      · intro l hl
        dsimp only at hl ⊢
        rw [hd0a] at hl
        rw [hd0s]
        simpa [addToSetS] using hl
      · intro q hq
        rw [List.mem_singleton] at hq
        subst hq
        exact List.mem_singleton.mpr rfl
      · intro q y q' h
        have h2 : DFA.get_transition (DFA.add_state { emptyDFA with alphabet := nfaAlphabet nfa, start := name0 } name0) q y = some q' := h
        rw [get_transition_single_empty _ name0 q y hd0t] at h2
        exact absurd h2 (by simp)
    · rw [if_neg hacc]
      refine
        { proc_canon := hpc
          states_proc := ?_
          accept_iff := ?_
          accept_states := ?_
          queue_proc := ?_
          trans_src := ?_ }
      · intro l hl
        dsimp only at hl
        rw [hd0s, List.mem_singleton] at hl
        exact ⟨(canonSet S0, name0), List.mem_singleton.mpr rfl, hl.symm⟩
      · intro pr hpr
        rw [List.mem_singleton] at hpr
        subst hpr
        dsimp only
        rw [hd0a]
        refine iff_of_false (by simp) ?_
        intro hm
        exact hacc ((mem_canonSet nfa.accept S0).mp hm)
      · intro l hl
        dsimp only at hl
        rw [hd0a] at hl
        exact absurd hl (by simp)
      · intro q hq
        rw [List.mem_singleton] at hq
        subst hq
        exact List.mem_singleton.mpr rfl
      · intro q y q' h
        have h2 : DFA.get_transition (DFA.add_state { emptyDFA with alphabet := nfaAlphabet nfa, start := name0 } name0) q y = some q' := h
        rw [get_transition_single_empty _ name0 q y hd0t] at h2
        exact absurd h2 (by simp)
  obtain ⟨h1, h2⟩ := subsetLoop_inv nfa (nfaAlphabet nfa)
    (2 ^ ((collectStatesL nfa.transitions).length + 1)) _ hinit
  exact ⟨h1, h2 _ (List.mem_singleton.mpr rfl)⟩

/-- C3: on every NFA, `subset_construction` never adds the empty-set marker `∅`
as a DFA state; every recorded transition leaves a constructed state whose
underlying NFA-state set has a nonempty move on that symbol; and a constructed
state is accepting exactly when its underlying set contains the NFA's accept
state. -/
theorem c3_subset_construction_invariants (nfa : NFA) :
    "∅" ∉ (subset_construction nfa).states ∧
    (∀ q sym q', DFA.get_transition (subset_construction nfa) q sym = some q' →
       ∃ S, (S, q) ∈ (subsetRun nfa).processed ∧ S ≠ [] ∧ move_dfa S sym nfa ≠ []) ∧
    (∀ S l, (S, l) ∈ (subsetRun nfa).processed →
       (l ∈ (subset_construction nfa).acceptStates ↔ nfa.accept ∈ S)) ∧
    (∀ l ∈ (subset_construction nfa).states,
       ∃ S, (S, l) ∈ (subsetRun nfa).processed ∧ S ≠ []) := by
  obtain ⟨hinv, -⟩ := subsetRun_inv nfa
  refine ⟨?_, ?_, ?_, ?_⟩
  · intro hmem
    obtain ⟨pr, hpr, hpr2⟩ := hinv.states_proc _ hmem
    obtain ⟨-, hne, hfmt⟩ := hinv.proc_canon pr hpr
    exact format_ne_marker pr.1 hne (by rw [← hfmt]; exact hpr2)
  · intro q sym q' h
    obtain ⟨S, hS, hmv⟩ := hinv.trans_src q sym q' h
    obtain ⟨-, hne, -⟩ := hinv.proc_canon (S, q) hS
    exact ⟨S, hS, hne, hmv⟩
  · intro S l h
    exact hinv.accept_iff (S, l) h
  · intro l hl
    obtain ⟨pr, hpr, hpr2⟩ := hinv.states_proc l hl
    obtain ⟨-, hne, -⟩ := hinv.proc_canon pr hpr
    exact ⟨pr.1, by rw [← hpr2]; exact hpr, hne⟩

/-- Witness for C3 on the one-letter NFA `1 --a--> 2`: the constructed state
`2` arises from the set `[2]` and is accepting because the set holds the NFA
accept state. -/
theorem c3_witness :
    (([2], "2") ∈ (subsetRun ⟨1, 2, [(1, [("a", 2)])]⟩).processed) ∧
    ("2" ∈ (subset_construction ⟨1, 2, [(1, [("a", 2)])]⟩).acceptStates ↔
      (2 : Nat) ∈ ([2] : List Nat)) :=
  ⟨by decide,
   (c3_subset_construction_invariants ⟨1, 2, [(1, [("a", 2)])]⟩).2.2.1 [2] "2" (by decide)⟩

theorem keys_addEdges (t : Trans) (s : Nat) (es : List (String × Nat)) (x : Nat) :
    x ∈ (addEdges t s es).map Prod.fst ↔ x ∈ t.map Prod.fst ∨ x = s := by
  unfold addEdges
  by_cases hex : t.any (fun p => p.1 == s)
  · rw [if_pos hex]
    have hks : s ∈ t.map Prod.fst := by
      obtain ⟨p, hp, hps⟩ := List.any_eq_true.mp hex
      simp only [beq_iff_eq] at hps
      exact hps ▸ List.mem_map_of_mem _ hp
    rw [List.map_map]
    have hpf : (Prod.fst ∘ fun p : Nat × List (String × Nat) =>
        if p.1 == s then (p.1, p.2 ++ es) else p) = Prod.fst := by
      funext p
      by_cases h : p.1 = s <;> simp [h]
    rw [hpf]
    constructor
    · exact Or.inl
    · rintro (h | rfl)
      · exact h
      · exact hks
  · rw [if_neg hex]
    simp

theorem targets_addEdges (t : Trans) (s : Nat) (es : List (String × Nat)) (x : Nat) :
    x ∈ allTargets (addEdges t s es) ↔ x ∈ allTargets t ∨ x ∈ es.map Prod.snd := by
  unfold addEdges
  by_cases hex : t.any (fun p => p.1 == s)
  · rw [if_pos hex]
    obtain ⟨w, hw, hws⟩ := List.any_eq_true.mp hex
    simp only [beq_iff_eq] at hws
    constructor
    · intro hx
      simp only [allTargets, List.map_map, List.mem_flatten, List.mem_map,
        Function.comp_def] at hx
      obtain ⟨l, ⟨p, hp, hl⟩, hxl⟩ := hx
      subst hl
      by_cases h : p.1 = s
      · rw [if_pos (by simpa using h)] at hxl
        rw [List.map_append, List.mem_append] at hxl
        rcases hxl with h2 | h2
        · refine Or.inl ?_
          simp only [allTargets, List.mem_flatten]
          exact ⟨p.2.map Prod.snd, List.mem_map_of_mem _ hp, h2⟩
        · exact Or.inr h2
      · rw [if_neg (by simpa using h)] at hxl
        refine Or.inl ?_
        simp only [allTargets, List.mem_flatten]
        exact ⟨p.2.map Prod.snd, List.mem_map_of_mem _ hp, hxl⟩
    · intro hx
      simp only [allTargets, List.map_map, List.mem_flatten, List.mem_map,
        Function.comp_def]
      rcases hx with hx | hx
      · simp only [allTargets, List.mem_flatten, List.mem_map] at hx
        obtain ⟨l, ⟨p, hp, hl⟩, hxl⟩ := hx
        subst hl
        by_cases h : p.1 = s
        · refine ⟨_, ⟨p, hp, rfl⟩, ?_⟩
          rw [if_pos (by simpa using h), List.map_append, List.mem_append]
          exact Or.inl hxl
        · refine ⟨_, ⟨p, hp, rfl⟩, ?_⟩
          rw [if_neg (by simpa using h)]
          exact hxl
      · refine ⟨_, ⟨w, hw, rfl⟩, ?_⟩
        rw [if_pos (by simpa using hws), List.map_append, List.mem_append]
        exact Or.inr hx
  · rw [if_neg hex]
    simp [allTargets]

theorem keys_merge (ta tb : Trans) (x : Nat) :
    x ∈ (mergeTrans ta tb).map Prod.fst ↔ x ∈ ta.map Prod.fst ∨ x ∈ tb.map Prod.fst := by
  unfold mergeTrans
  induction tb generalizing ta with
  | nil => simp
  | cons p tb ih =>
    rw [List.foldl_cons, ih]
    rw [keys_addEdges]
    simp only [List.map_cons, List.mem_cons]
    tauto

theorem targets_merge (ta tb : Trans) (x : Nat) :
    x ∈ allTargets (mergeTrans ta tb) ↔ x ∈ allTargets ta ∨ x ∈ allTargets tb := by
  unfold mergeTrans
  induction tb generalizing ta with
  | nil => simp [allTargets]
  | cons p tb ih =>
    rw [List.foldl_cons, ih]
    rw [targets_addEdges]
    have : x ∈ allTargets (p :: tb) ↔ x ∈ p.2.map Prod.snd ∨ x ∈ allTargets tb := by
      simp [allTargets]
    rw [this]
    tauto

theorem lookupD_addEdges_sub (t : Trans) (s : Nat) (es : List (String × Nat))
    (u : Nat) (e : String × Nat) (he : e ∈ lookupD t u) :
    e ∈ lookupD (addEdges t s es) u := by
  unfold addEdges
  by_cases hex : t.any (fun p => p.1 == s)
  · rw [if_pos hex]
    unfold lookupD at he ⊢
    rw [List.find?_map]
    have hpf : ((fun p : Nat × List (String × Nat) => p.1 == u) ∘
        (fun p : Nat × List (String × Nat) => if p.1 == s then (p.1, p.2 ++ es) else p)) =
        (fun p : Nat × List (String × Nat) => p.1 == u) := by
      funext p
      by_cases h : p.1 = s <;> simp [h]
    rw [hpf]
    match hf : t.find? (fun p => p.1 == u) with
    | none => rw [hf] at he; simp at he
    | some p =>
      rw [hf] at he
      rw [hf, Option.map_some']
      by_cases h : p.1 = s
      · rw [if_pos (by simpa using h)]
        exact List.mem_append_left _ he
      · rw [if_neg (by simpa using h)]
        exact he
  · rw [if_neg hex]
    unfold lookupD at he ⊢
    rw [List.find?_append]
    match hf : t.find? (fun p => p.1 == u) with
    | none => rw [hf] at he; simp at he
    | some p =>
      rw [hf] at he
      rw [hf]
      simpa using he

theorem lookupD_addEdges_self (t : Trans) (s : Nat) (es : List (String × Nat))
    (e : String × Nat) (he : e ∈ es) : e ∈ lookupD (addEdges t s es) s := by
  unfold addEdges
  by_cases hex : t.any (fun p => p.1 == s)
  · rw [if_pos hex]
    unfold lookupD
    rw [List.find?_map]
    have hpf : ((fun p : Nat × List (String × Nat) => p.1 == s) ∘
        (fun p : Nat × List (String × Nat) => if p.1 == s then (p.1, p.2 ++ es) else p)) =
        (fun p : Nat × List (String × Nat) => p.1 == s) := by
      funext p
      by_cases h : p.1 = s <;> simp [h]
    rw [hpf]
    have hs : (t.find? (fun p => p.1 == s)).isSome := by
      rw [List.find?_isSome]
      simpa [List.any_eq_true] using hex
    match hf : t.find? (fun p => p.1 == s) with
    | none => rw [hf] at hs; simp at hs
    | some p =>
      have hps := List.find?_some hf
      simp only [beq_iff_eq] at hps
      rw [hf, Option.map_some', if_pos (by simpa using hps)]
      exact List.mem_append_right _ he
  · rw [if_neg hex]
    unfold lookupD
    rw [List.find?_append]
    have hnone : t.find? (fun p => p.1 == s) = none := by
      rw [List.find?_eq_none]
      intro x hx hc
      exact hex (List.any_eq_true.mpr ⟨x, hx, hc⟩)
    rw [hnone]
    simpa using he

theorem lookupD_foldl_sub (l : List (Nat × List (String × Nat))) :
    ∀ (acc : Trans) (u : Nat) (e : String × Nat), e ∈ lookupD acc u →
      e ∈ lookupD (l.foldl (fun a p => addEdges a p.1 p.2) acc) u := by
  induction l with
  | nil => exact fun acc u e he => he
  | cons p l ih =>
    intro acc u e he
    exact ih _ u e (lookupD_addEdges_sub acc p.1 p.2 u e he)

theorem lookupD_merge_left (ta tb : Trans) (u : Nat) (e : String × Nat)
    (he : e ∈ lookupD ta u) : e ∈ lookupD (mergeTrans ta tb) u :=
  lookupD_foldl_sub tb ta u e he

theorem lookupD_merge_right (tb : Trans) :
    ∀ (ta : Trans) (u : Nat) (e : String × Nat), e ∈ lookupD tb u →
      e ∈ lookupD (mergeTrans ta tb) u := by
  induction tb with
  | nil => intro ta u e he; simp [lookupD] at he
  | cons p tb ih =>
    intro ta u e he
    unfold lookupD at he
    rw [List.find?_cons] at he
    cases hpu : (p.1 == u) with
    | true =>
      simp only [hpu] at he
      have h : p.1 = u := by simpa using hpu
      show e ∈ lookupD (tb.foldl (fun a q => addEdges a q.1 q.2) (addEdges ta p.1 p.2)) u
      refine lookupD_foldl_sub tb _ u e ?_
      rw [← h]
      exact lookupD_addEdges_self ta p.1 p.2 e he
    | false =>
      simp only [hpu] at he
      exact ih (addEdges ta p.1 p.2) u e he

theorem triple_target_mem (T : Trans) (tr : Nat × String × Nat)
    (h : tr ∈ triplesOf T) : tr.2.2 ∈ allTargets T := by
  simp only [triplesOf, List.mem_flatten, List.mem_map] at h
  obtain ⟨l, ⟨p, hp, hl⟩, hxl⟩ := h
  subst hl
  obtain ⟨e, he, htr⟩ := List.mem_map.mp hxl
  subst htr
  exact mem_allTargets T p e hp he

theorem lookupD_not_key (T : Trans) (s : Nat) (h : s ∉ T.map Prod.fst) :
    lookupD T s = [] := by
  unfold lookupD
  have hnone : T.find? (fun p => p.1 == s) = none := by
    rw [List.find?_eq_none]
    intro p hp hc
    simp only [beq_iff_eq] at hc
    exact h (hc ▸ List.mem_map_of_mem _ hp)
  rw [hnone]

theorem mem_collect_iff (T : Trans) (x : Nat) :
    x ∈ collectStatesL T ↔ x ∈ T.map Prod.fst ∨ x ∈ allTargets T := by
  simp [collectStatesL]

theorem ReachT_mono (T T2 : Trans)
    (hsub : ∀ u, ∀ e ∈ lookupD T u, e ∈ lookupD T2 u) {a b : Nat}
    (h : ReachT T a b) : ReachT T2 a b := by
  induction h with
  | refl => exact ReachT.refl
  | step sym _ he ih => exact ReachT.step sym ih (hsub _ _ he)

theorem ReachT_trans (T : Trans) {a b c : Nat}
    (h1 : ReachT T a b) (h2 : ReachT T b c) : ReachT T a c := by
  induction h2 with
  | refl => exact h1
  | step sym _ he ih => exact ReachT.step sym ih he

theorem BuildInv.weaken {A : NFA} {c0 c c' : Nat} (h : c0 ≤ c)
    (hb : BuildInv A c c') : BuildInv A c0 c' :=
  { lt := Nat.lt_of_le_of_lt h hb.lt
    start_lo := Nat.lt_of_le_of_lt h hb.start_lo
    start_hi := hb.start_hi
    accept_lo := Nat.lt_of_le_of_lt h hb.accept_lo
    accept_hi := hb.accept_hi
    sa_ne := hb.sa_ne
    range := fun x hx => ⟨Nat.lt_of_le_of_lt h (hb.range x hx).1, (hb.range x hx).2⟩
    start_key := hb.start_key
    accept_tgt := hb.accept_tgt
    start_no_in := hb.start_no_in
    accept_no_out := hb.accept_no_out
    reach := hb.reach }

theorem leaf_inv (sym : String) (c : Nat) :
    BuildInv ⟨c + 1, c + 2, [(c + 1, [(sym, c + 2)])]⟩ c (c + 2) := by
  refine
    { lt := by omega
      start_lo := by dsimp only; omega
      start_hi := by dsimp only; omega
      accept_lo := by dsimp only; omega
      accept_hi := by dsimp only; omega
      sa_ne := by dsimp only; omega
      range := ?_
      start_key := by simp
      accept_tgt := by simp [allTargets]
      start_no_in := by simp [allTargets]
      accept_no_out := by simp
      reach := ?_ }
  · intro x hx
    simp [collectStatesL, allTargets] at hx
    rcases hx with rfl | rfl <;> omega
  · intro s hs
    simp [collectStatesL, allTargets] at hs
    rcases hs with rfl | rfl
    · exact ReachT.refl
    · refine ReachT.step sym ReachT.refl ?_
      simp [lookupD]

theorem star_inv (A : NFA) (c c1 : Nat) (hA : BuildInv A c c1) :
    BuildInv ⟨c1 + 1, c1 + 2,
      addEdges (addEdges (mergeTrans [] A.transitions) (c1 + 1)
        [("ε", A.start), ("ε", c1 + 2)]) A.accept [("ε", A.start), ("ε", c1 + 2)]⟩
      c (c1 + 2) := by
  have hlt := hA.lt
  have hsl := hA.start_lo
  have hsh := hA.start_hi
  have hal := hA.accept_lo
  have hah := hA.accept_hi
  have h0k : (([] : Trans).map Prod.fst) = [] := rfl
  have h0t : allTargets ([] : Trans) = [] := rfl
  have hkeys : ∀ x : Nat,
      (x ∈ (addEdges (addEdges (mergeTrans [] A.transitions) (c1 + 1)
        [("ε", A.start), ("ε", c1 + 2)]) A.accept
        [("ε", A.start), ("ε", c1 + 2)]).map Prod.fst) ↔
      (x ∈ A.transitions.map Prod.fst ∨ x = c1 + 1 ∨ x = A.accept) := by
    intro x
    rw [keys_addEdges, keys_addEdges, keys_merge, h0k]
    simp only [List.not_mem_nil, false_or]
    tauto
  have htgts : ∀ x : Nat,
      (x ∈ allTargets (addEdges (addEdges (mergeTrans [] A.transitions) (c1 + 1)
        [("ε", A.start), ("ε", c1 + 2)]) A.accept
        [("ε", A.start), ("ε", c1 + 2)])) ↔
      (x ∈ allTargets A.transitions ∨ x = A.start ∨ x = c1 + 2) := by
    intro x
    rw [targets_addEdges, targets_addEdges, targets_merge, h0t]
    simp only [List.not_mem_nil, false_or, List.map_cons, List.map_nil, List.mem_cons,
      or_false]
    tauto
  have hdec : ∀ x : Nat,
      (x ∈ collectStatesL (addEdges (addEdges (mergeTrans [] A.transitions) (c1 + 1)
        [("ε", A.start), ("ε", c1 + 2)]) A.accept
        [("ε", A.start), ("ε", c1 + 2)])) ↔
      ((x ∈ A.transitions.map Prod.fst ∨ x = c1 + 1 ∨ x = A.accept) ∨
       (x ∈ allTargets A.transitions ∨ x = A.start ∨ x = c1 + 2)) := by
    intro x
    rw [mem_collect_iff, hkeys, htgts]
  have hmono : ∀ u, ∀ e ∈ lookupD A.transitions u,
      e ∈ lookupD (addEdges (addEdges (mergeTrans [] A.transitions) (c1 + 1)
        [("ε", A.start), ("ε", c1 + 2)]) A.accept [("ε", A.start), ("ε", c1 + 2)]) u :=
    fun u e he => lookupD_addEdges_sub _ _ _ _ _ (lookupD_addEdges_sub _ _ _ _ _
      (lookupD_merge_right A.transitions [] u e he))
  have he1 : ("ε", A.start) ∈ lookupD (addEdges (addEdges (mergeTrans [] A.transitions)
      (c1 + 1) [("ε", A.start), ("ε", c1 + 2)]) A.accept
      [("ε", A.start), ("ε", c1 + 2)]) (c1 + 1) :=
    lookupD_addEdges_sub _ _ _ _ _ (lookupD_addEdges_self _ _ _ _ (by simp))
  have he2 : ("ε", c1 + 2) ∈ lookupD (addEdges (addEdges (mergeTrans [] A.transitions)
      (c1 + 1) [("ε", A.start), ("ε", c1 + 2)]) A.accept
      [("ε", A.start), ("ε", c1 + 2)]) (c1 + 1) :=
    lookupD_addEdges_sub _ _ _ _ _ (lookupD_addEdges_self _ _ _ _ (by simp))
  refine
    { lt := by omega
      start_lo := by dsimp only; omega
      start_hi := by dsimp only; omega
      accept_lo := by dsimp only; omega
      accept_hi := by dsimp only; omega
      sa_ne := by dsimp only; omega
      range := ?_
      start_key := (hkeys _).mpr (Or.inr (Or.inl rfl))
      accept_tgt := (htgts _).mpr (Or.inr (Or.inr rfl))
      start_no_in := ?_
      accept_no_out := ?_
      reach := ?_ }
  · intro x hx
    rcases (hdec x).mp hx with (hk | rfl | rfl) | (ht | rfl | rfl)
    · have := hA.range x ((mem_collect_iff _ x).mpr (Or.inl hk)); omega
    · omega
    · omega
    · have := hA.range x ((mem_collect_iff _ x).mpr (Or.inr ht)); omega
    · omega
    · omega
  · dsimp only
    intro hmem
    rcases (htgts _).mp hmem with ht | he | he
    · have := hA.range _ ((mem_collect_iff _ _).mpr (Or.inr ht)); omega
    · omega
    · omega
  · dsimp only
    intro hmem
    rcases (hkeys _).mp hmem with hk | he | he
    · have := hA.range _ ((mem_collect_iff _ _).mpr (Or.inl hk)); omega
    · omega
    · omega
  · have rstart : ReachT (addEdges (addEdges (mergeTrans [] A.transitions) (c1 + 1)
        [("ε", A.start), ("ε", c1 + 2)]) A.accept [("ε", A.start), ("ε", c1 + 2)])
        (c1 + 1) A.start := ReachT.step "ε" ReachT.refl he1
    have rt : ReachT (addEdges (addEdges (mergeTrans [] A.transitions) (c1 + 1)
        [("ε", A.start), ("ε", c1 + 2)]) A.accept [("ε", A.start), ("ε", c1 + 2)])
        (c1 + 1) (c1 + 2) := ReachT.step "ε" ReachT.refl he2
    have rta : ∀ x ∈ collectStatesL A.transitions,
        ReachT (addEdges (addEdges (mergeTrans [] A.transitions) (c1 + 1)
          [("ε", A.start), ("ε", c1 + 2)]) A.accept [("ε", A.start), ("ε", c1 + 2)])
          (c1 + 1) x :=
      fun x hx => ReachT_trans _ rstart (ReachT_mono _ _ hmono (hA.reach x hx))
    intro x hx
    rcases (hdec x).mp hx with (hk | rfl | rfl) | (ht | rfl | rfl)
    · exact rta x ((mem_collect_iff _ x).mpr (Or.inl hk))
    · exact ReachT.refl
    · exact rta _ ((mem_collect_iff _ _).mpr (Or.inr hA.accept_tgt))
    · exact rta x ((mem_collect_iff _ x).mpr (Or.inr ht))
    · exact rstart
    · exact rt

theorem opt_inv (A : NFA) (c c1 : Nat) (hA : BuildInv A c c1) :
    BuildInv ⟨c1 + 1, c1 + 2,
      addEdges (addEdges (mergeTrans [] A.transitions) (c1 + 1)
        [("ε", A.start), ("ε", c1 + 2)]) A.accept [("ε", c1 + 2)]⟩
      c (c1 + 2) := by
  have hlt := hA.lt
  have hsl := hA.start_lo
  have hsh := hA.start_hi
  have hal := hA.accept_lo
  have hah := hA.accept_hi
  have h0k : (([] : Trans).map Prod.fst) = [] := rfl
  have h0t : allTargets ([] : Trans) = [] := rfl
  have hkeys : ∀ x : Nat,
      (x ∈ (addEdges (addEdges (mergeTrans [] A.transitions) (c1 + 1)
        [("ε", A.start), ("ε", c1 + 2)]) A.accept [("ε", c1 + 2)]).map Prod.fst) ↔
      (x ∈ A.transitions.map Prod.fst ∨ x = c1 + 1 ∨ x = A.accept) := by
    intro x
    rw [keys_addEdges, keys_addEdges, keys_merge, h0k]
    simp only [List.not_mem_nil, false_or]
    tauto
  have htgts : ∀ x : Nat,
      (x ∈ allTargets (addEdges (addEdges (mergeTrans [] A.transitions) (c1 + 1)
        [("ε", A.start), ("ε", c1 + 2)]) A.accept [("ε", c1 + 2)])) ↔
      (x ∈ allTargets A.transitions ∨ x = A.start ∨ x = c1 + 2) := by
    intro x
    rw [targets_addEdges, targets_addEdges, targets_merge, h0t]
    simp only [List.not_mem_nil, false_or, List.map_cons, List.map_nil, List.mem_cons,
      or_false]
    tauto
  have hdec : ∀ x : Nat,
      (x ∈ collectStatesL (addEdges (addEdges (mergeTrans [] A.transitions) (c1 + 1)
        [("ε", A.start), ("ε", c1 + 2)]) A.accept [("ε", c1 + 2)])) ↔
      ((x ∈ A.transitions.map Prod.fst ∨ x = c1 + 1 ∨ x = A.accept) ∨
       (x ∈ allTargets A.transitions ∨ x = A.start ∨ x = c1 + 2)) := by
    intro x
    rw [mem_collect_iff, hkeys, htgts]
  have hmono : ∀ u, ∀ e ∈ lookupD A.transitions u,
      e ∈ lookupD (addEdges (addEdges (mergeTrans [] A.transitions) (c1 + 1)
        [("ε", A.start), ("ε", c1 + 2)]) A.accept [("ε", c1 + 2)]) u :=
    fun u e he => lookupD_addEdges_sub _ _ _ _ _ (lookupD_addEdges_sub _ _ _ _ _
      (lookupD_merge_right A.transitions [] u e he))
  have he1 : ("ε", A.start) ∈ lookupD (addEdges (addEdges (mergeTrans [] A.transitions)
      (c1 + 1) [("ε", A.start), ("ε", c1 + 2)]) A.accept [("ε", c1 + 2)]) (c1 + 1) :=
    lookupD_addEdges_sub _ _ _ _ _ (lookupD_addEdges_self _ _ _ _ (by simp))
  have he2 : ("ε", c1 + 2) ∈ lookupD (addEdges (addEdges (mergeTrans [] A.transitions)
      (c1 + 1) [("ε", A.start), ("ε", c1 + 2)]) A.accept [("ε", c1 + 2)]) (c1 + 1) :=
    lookupD_addEdges_sub _ _ _ _ _ (lookupD_addEdges_self _ _ _ _ (by simp))
  refine
    { lt := by omega
      start_lo := by dsimp only; omega
      start_hi := by dsimp only; omega
      accept_lo := by dsimp only; omega
      accept_hi := by dsimp only; omega
      sa_ne := by dsimp only; omega
      range := ?_
      start_key := (hkeys _).mpr (Or.inr (Or.inl rfl))
      accept_tgt := (htgts _).mpr (Or.inr (Or.inr rfl))
      start_no_in := ?_
      accept_no_out := ?_
      reach := ?_ }
  · intro x hx
    rcases (hdec x).mp hx with (hk | rfl | rfl) | (ht | rfl | rfl)
    · have := hA.range x ((mem_collect_iff _ x).mpr (Or.inl hk)); omega
    · omega
    · omega
    · have := hA.range x ((mem_collect_iff _ x).mpr (Or.inr ht)); omega
    · omega
    · omega
  · dsimp only
    intro hmem
    rcases (htgts _).mp hmem with ht | he | he
    · have := hA.range _ ((mem_collect_iff _ _).mpr (Or.inr ht)); omega
    · omega
    · omega
  · dsimp only
    intro hmem
    rcases (hkeys _).mp hmem with hk | he | he
    · have := hA.range _ ((mem_collect_iff _ _).mpr (Or.inl hk)); omega
    · omega
    · omega
  · have rstart : ReachT (addEdges (addEdges (mergeTrans [] A.transitions) (c1 + 1)
        [("ε", A.start), ("ε", c1 + 2)]) A.accept [("ε", c1 + 2)])
        (c1 + 1) A.start := ReachT.step "ε" ReachT.refl he1
    have rt : ReachT (addEdges (addEdges (mergeTrans [] A.transitions) (c1 + 1)
        [("ε", A.start), ("ε", c1 + 2)]) A.accept [("ε", c1 + 2)])
        (c1 + 1) (c1 + 2) := ReachT.step "ε" ReachT.refl he2
    have rta : ∀ x ∈ collectStatesL A.transitions,
        ReachT (addEdges (addEdges (mergeTrans [] A.transitions) (c1 + 1)
          [("ε", A.start), ("ε", c1 + 2)]) A.accept [("ε", c1 + 2)])
          (c1 + 1) x :=
      fun x hx => ReachT_trans _ rstart (ReachT_mono _ _ hmono (hA.reach x hx))
    intro x hx
    rcases (hdec x).mp hx with (hk | rfl | rfl) | (ht | rfl | rfl)
    · exact rta x ((mem_collect_iff _ x).mpr (Or.inl hk))
    · exact ReachT.refl
    · exact rta _ ((mem_collect_iff _ _).mpr (Or.inr hA.accept_tgt))
    · exact rta x ((mem_collect_iff _ x).mpr (Or.inr ht))
    · exact rstart
    · exact rt

theorem concat_inv (A B : NFA) (c c1 c2 : Nat)
    (hA : BuildInv A c c1) (hB : BuildInv B c1 c2) :
    BuildInv ⟨A.start, B.accept,
      addEdges (mergeTrans A.transitions B.transitions) A.accept [("ε", B.start)]⟩
      c c2 := by
  have hltA := hA.lt
  have hltB := hB.lt
  have hslA := hA.start_lo
  have hshA := hA.start_hi
  have halA := hA.accept_lo
  have hahA := hA.accept_hi
  have hslB := hB.start_lo
  have hshB := hB.start_hi
  have halB := hB.accept_lo
  have hahB := hB.accept_hi
  have hkeys : ∀ x : Nat,
      (x ∈ (addEdges (mergeTrans A.transitions B.transitions) A.accept
        [("ε", B.start)]).map Prod.fst) ↔
      (x ∈ A.transitions.map Prod.fst ∨ x ∈ B.transitions.map Prod.fst ∨ x = A.accept) := by
    intro x
    rw [keys_addEdges, keys_merge]
    tauto
  have htgts : ∀ x : Nat,
      (x ∈ allTargets (addEdges (mergeTrans A.transitions B.transitions) A.accept
        [("ε", B.start)])) ↔
      (x ∈ allTargets A.transitions ∨ x ∈ allTargets B.transitions ∨ x = B.start) := by
    intro x
    rw [targets_addEdges, targets_merge]
    simp only [List.map_cons, List.map_nil, List.mem_cons, List.not_mem_nil, or_false]
    tauto
  have hdec : ∀ x : Nat,
      (x ∈ collectStatesL (addEdges (mergeTrans A.transitions B.transitions) A.accept
        [("ε", B.start)])) ↔
      ((x ∈ A.transitions.map Prod.fst ∨ x ∈ B.transitions.map Prod.fst ∨ x = A.accept) ∨
       (x ∈ allTargets A.transitions ∨ x ∈ allTargets B.transitions ∨ x = B.start)) := by
    intro x
    rw [mem_collect_iff, hkeys, htgts]
  have hmonoA : ∀ u, ∀ e ∈ lookupD A.transitions u,
      e ∈ lookupD (addEdges (mergeTrans A.transitions B.transitions) A.accept
        [("ε", B.start)]) u :=
    fun u e he => lookupD_addEdges_sub _ _ _ _ _ (lookupD_merge_left _ _ u e he)
  have hmonoB : ∀ u, ∀ e ∈ lookupD B.transitions u,
      e ∈ lookupD (addEdges (mergeTrans A.transitions B.transitions) A.accept
        [("ε", B.start)]) u :=
    fun u e he => lookupD_addEdges_sub _ _ _ _ _
      (lookupD_merge_right B.transitions A.transitions u e he)
  have hedge : ("ε", B.start) ∈ lookupD (addEdges (mergeTrans A.transitions B.transitions)
      A.accept [("ε", B.start)]) A.accept :=
    lookupD_addEdges_self _ _ _ _ (by simp)
  refine
    { lt := by omega
      start_lo := by dsimp only; omega
      start_hi := by dsimp only; omega
      accept_lo := by dsimp only; omega
      accept_hi := by dsimp only; omega
      sa_ne := by dsimp only; omega
      range := ?_
      start_key := (hkeys _).mpr (Or.inl hA.start_key)
      accept_tgt := (htgts _).mpr (Or.inr (Or.inl hB.accept_tgt))
      start_no_in := ?_
      accept_no_out := ?_
      reach := ?_ }
  · intro x hx
    rcases (hdec x).mp hx with (hk | hk | rfl) | (ht | ht | rfl)
    · have := hA.range x ((mem_collect_iff _ x).mpr (Or.inl hk)); omega
    · have := hB.range x ((mem_collect_iff _ x).mpr (Or.inl hk)); omega
    · omega
    · have := hA.range x ((mem_collect_iff _ x).mpr (Or.inr ht)); omega
    · have := hB.range x ((mem_collect_iff _ x).mpr (Or.inr ht)); omega
    · omega
  · dsimp only
    intro hmem
    rcases (htgts _).mp hmem with ht | ht | he
    · exact hA.start_no_in ht
    · have := hB.range _ ((mem_collect_iff _ _).mpr (Or.inr ht)); omega
    · omega
  · dsimp only
    intro hmem
    rcases (hkeys _).mp hmem with hk | hk | he
    · have := hA.range _ ((mem_collect_iff _ _).mpr (Or.inl hk)); omega
    · exact hB.accept_no_out hk
    · omega
  · have rA : ∀ x ∈ collectStatesL A.transitions,
        ReachT (addEdges (mergeTrans A.transitions B.transitions) A.accept
          [("ε", B.start)]) A.start x :=
      fun x hx => ReachT_mono _ _ hmonoA (hA.reach x hx)
    have rAacc : ReachT (addEdges (mergeTrans A.transitions B.transitions) A.accept
        [("ε", B.start)]) A.start A.accept :=
      rA _ ((mem_collect_iff _ _).mpr (Or.inr hA.accept_tgt))
    have rBstart : ReachT (addEdges (mergeTrans A.transitions B.transitions) A.accept
        [("ε", B.start)]) A.start B.start := ReachT.step "ε" rAacc hedge
    have rB : ∀ x ∈ collectStatesL B.transitions,
        ReachT (addEdges (mergeTrans A.transitions B.transitions) A.accept
          [("ε", B.start)]) A.start x :=
      fun x hx => ReachT_trans _ rBstart (ReachT_mono _ _ hmonoB (hB.reach x hx))
    intro x hx
    rcases (hdec x).mp hx with (hk | hk | rfl) | (ht | ht | rfl)
    · exact rA x ((mem_collect_iff _ x).mpr (Or.inl hk))
    · exact rB x ((mem_collect_iff _ x).mpr (Or.inl hk))
    · exact rAacc
    · exact rA x ((mem_collect_iff _ x).mpr (Or.inr ht))
    · exact rB x ((mem_collect_iff _ x).mpr (Or.inr ht))
    · exact rBstart

theorem alt_inv (A B : NFA) (c c1 c2 : Nat)
    (hA : BuildInv A c c1) (hB : BuildInv B c1 c2) :
    BuildInv ⟨c2 + 1, c2 + 2,
      addEdges (addEdges (addEdges (mergeTrans (mergeTrans [] A.transitions) B.transitions)
        (c2 + 1) [("ε", A.start), ("ε", B.start)]) A.accept [("ε", c2 + 2)])
        B.accept [("ε", c2 + 2)]⟩
      c (c2 + 2) := by
  have hltA := hA.lt
  have hltB := hB.lt
  have hslA := hA.start_lo
  have hshA := hA.start_hi
  have halA := hA.accept_lo
  have hahA := hA.accept_hi
  have hslB := hB.start_lo
  have hshB := hB.start_hi
  have halB := hB.accept_lo
  have hahB := hB.accept_hi
  have h0k : (([] : Trans).map Prod.fst) = [] := rfl
  have h0t : allTargets ([] : Trans) = [] := rfl
  have hkeys : ∀ x : Nat,
      (x ∈ (addEdges (addEdges (addEdges (mergeTrans (mergeTrans [] A.transitions)
        B.transitions) (c2 + 1) [("ε", A.start), ("ε", B.start)]) A.accept
        [("ε", c2 + 2)]) B.accept [("ε", c2 + 2)]).map Prod.fst) ↔
      (x ∈ A.transitions.map Prod.fst ∨ x ∈ B.transitions.map Prod.fst ∨
       x = c2 + 1 ∨ x = A.accept ∨ x = B.accept) := by
    intro x
    rw [keys_addEdges, keys_addEdges, keys_addEdges, keys_merge, keys_merge, h0k]
    simp only [List.not_mem_nil, false_or]
    tauto
  have htgts : ∀ x : Nat,
      (x ∈ allTargets (addEdges (addEdges (addEdges (mergeTrans (mergeTrans []
        A.transitions) B.transitions) (c2 + 1) [("ε", A.start), ("ε", B.start)])
        A.accept [("ε", c2 + 2)]) B.accept [("ε", c2 + 2)])) ↔
      (x ∈ allTargets A.transitions ∨ x ∈ allTargets B.transitions ∨
       x = A.start ∨ x = B.start ∨ x = c2 + 2) := by
    intro x
    rw [targets_addEdges, targets_addEdges, targets_addEdges, targets_merge,
      targets_merge, h0t]
    simp only [List.not_mem_nil, false_or, List.map_cons, List.map_nil, List.mem_cons,
      or_false]
    tauto
  have hdec : ∀ x : Nat,
      (x ∈ collectStatesL (addEdges (addEdges (addEdges (mergeTrans (mergeTrans []
        A.transitions) B.transitions) (c2 + 1) [("ε", A.start), ("ε", B.start)])
        A.accept [("ε", c2 + 2)]) B.accept [("ε", c2 + 2)])) ↔
      ((x ∈ A.transitions.map Prod.fst ∨ x ∈ B.transitions.map Prod.fst ∨
        x = c2 + 1 ∨ x = A.accept ∨ x = B.accept) ∨
       (x ∈ allTargets A.transitions ∨ x ∈ allTargets B.transitions ∨
        x = A.start ∨ x = B.start ∨ x = c2 + 2)) := by
    intro x
    rw [mem_collect_iff, hkeys, htgts]
  have hmonoA : ∀ u, ∀ e ∈ lookupD A.transitions u,
      e ∈ lookupD (addEdges (addEdges (addEdges (mergeTrans (mergeTrans [] A.transitions)
        B.transitions) (c2 + 1) [("ε", A.start), ("ε", B.start)]) A.accept
        [("ε", c2 + 2)]) B.accept [("ε", c2 + 2)]) u :=
    fun u e he => lookupD_addEdges_sub _ _ _ _ _ (lookupD_addEdges_sub _ _ _ _ _
      (lookupD_addEdges_sub _ _ _ _ _ (lookupD_merge_left _ _ u e
        (lookupD_merge_right A.transitions [] u e he))))
  have hmonoB : ∀ u, ∀ e ∈ lookupD B.transitions u,
      e ∈ lookupD (addEdges (addEdges (addEdges (mergeTrans (mergeTrans [] A.transitions)
        B.transitions) (c2 + 1) [("ε", A.start), ("ε", B.start)]) A.accept
        [("ε", c2 + 2)]) B.accept [("ε", c2 + 2)]) u :=
    fun u e he => lookupD_addEdges_sub _ _ _ _ _ (lookupD_addEdges_sub _ _ _ _ _
      (lookupD_addEdges_sub _ _ _ _ _
        (lookupD_merge_right B.transitions (mergeTrans [] A.transitions) u e he)))
  have hes1 : ("ε", A.start) ∈ lookupD (addEdges (addEdges (addEdges (mergeTrans
      (mergeTrans [] A.transitions) B.transitions) (c2 + 1)
      [("ε", A.start), ("ε", B.start)]) A.accept [("ε", c2 + 2)]) B.accept
      [("ε", c2 + 2)]) (c2 + 1) :=
    lookupD_addEdges_sub _ _ _ _ _ (lookupD_addEdges_sub _ _ _ _ _
      (lookupD_addEdges_self _ _ _ _ (by simp)))
  have hes2 : ("ε", B.start) ∈ lookupD (addEdges (addEdges (addEdges (mergeTrans
      (mergeTrans [] A.transitions) B.transitions) (c2 + 1)
      [("ε", A.start), ("ε", B.start)]) A.accept [("ε", c2 + 2)]) B.accept
      [("ε", c2 + 2)]) (c2 + 1) :=
    lookupD_addEdges_sub _ _ _ _ _ (lookupD_addEdges_sub _ _ _ _ _
      (lookupD_addEdges_self _ _ _ _ (by simp)))
  have heA : ("ε", c2 + 2) ∈ lookupD (addEdges (addEdges (addEdges (mergeTrans
      (mergeTrans [] A.transitions) B.transitions) (c2 + 1)
      [("ε", A.start), ("ε", B.start)]) A.accept [("ε", c2 + 2)]) B.accept
      [("ε", c2 + 2)]) A.accept :=
    lookupD_addEdges_sub _ _ _ _ _ (lookupD_addEdges_self _ _ _ _ (by simp))
  refine
    { lt := by omega
      start_lo := by dsimp only; omega
      start_hi := by dsimp only; omega
      accept_lo := by dsimp only; omega
      accept_hi := by dsimp only; omega
      sa_ne := by dsimp only; omega
      range := ?_
      start_key := (hkeys _).mpr (Or.inr (Or.inr (Or.inl rfl)))
      accept_tgt := (htgts _).mpr (Or.inr (Or.inr (Or.inr (Or.inr rfl))))
      start_no_in := ?_
      accept_no_out := ?_
      reach := ?_ }
  · intro x hx
    rcases (hdec x).mp hx with (hk | hk | rfl | rfl | rfl) | (ht | ht | rfl | rfl | rfl)
    · have := hA.range x ((mem_collect_iff _ x).mpr (Or.inl hk)); omega
    · have := hB.range x ((mem_collect_iff _ x).mpr (Or.inl hk)); omega
    · omega
    · omega
    · omega
    · have := hA.range x ((mem_collect_iff _ x).mpr (Or.inr ht)); omega
    · have := hB.range x ((mem_collect_iff _ x).mpr (Or.inr ht)); omega
    · omega
    · omega
    · omega
  · dsimp only
    intro hmem
    rcases (htgts _).mp hmem with ht | ht | he | he | he
    · have := hA.range _ ((mem_collect_iff _ _).mpr (Or.inr ht)); omega
    · have := hB.range _ ((mem_collect_iff _ _).mpr (Or.inr ht)); omega
    · omega
    · omega
    · omega
  · dsimp only
    intro hmem
    rcases (hkeys _).mp hmem with hk | hk | he | he | he
    · have := hA.range _ ((mem_collect_iff _ _).mpr (Or.inl hk)); omega
    · have := hB.range _ ((mem_collect_iff _ _).mpr (Or.inl hk)); omega
    · omega
    · omega
    · omega
  · have rAstart : ReachT (addEdges (addEdges (addEdges (mergeTrans (mergeTrans []
        A.transitions) B.transitions) (c2 + 1) [("ε", A.start), ("ε", B.start)])
        A.accept [("ε", c2 + 2)]) B.accept [("ε", c2 + 2)]) (c2 + 1) A.start :=
      ReachT.step "ε" ReachT.refl hes1
    have rBstart : ReachT (addEdges (addEdges (addEdges (mergeTrans (mergeTrans []
        A.transitions) B.transitions) (c2 + 1) [("ε", A.start), ("ε", B.start)])
        A.accept [("ε", c2 + 2)]) B.accept [("ε", c2 + 2)]) (c2 + 1) B.start :=
      ReachT.step "ε" ReachT.refl hes2
    have rA : ∀ x ∈ collectStatesL A.transitions,
        ReachT (addEdges (addEdges (addEdges (mergeTrans (mergeTrans [] A.transitions)
          B.transitions) (c2 + 1) [("ε", A.start), ("ε", B.start)]) A.accept
          [("ε", c2 + 2)]) B.accept [("ε", c2 + 2)]) (c2 + 1) x :=
      fun x hx => ReachT_trans _ rAstart (ReachT_mono _ _ hmonoA (hA.reach x hx))
    have rB : ∀ x ∈ collectStatesL B.transitions,
        ReachT (addEdges (addEdges (addEdges (mergeTrans (mergeTrans [] A.transitions)
          B.transitions) (c2 + 1) [("ε", A.start), ("ε", B.start)]) A.accept
          [("ε", c2 + 2)]) B.accept [("ε", c2 + 2)]) (c2 + 1) x :=
      fun x hx => ReachT_trans _ rBstart (ReachT_mono _ _ hmonoB (hB.reach x hx))
    have rt : ReachT (addEdges (addEdges (addEdges (mergeTrans (mergeTrans []
        A.transitions) B.transitions) (c2 + 1) [("ε", A.start), ("ε", B.start)])
        A.accept [("ε", c2 + 2)]) B.accept [("ε", c2 + 2)]) (c2 + 1) (c2 + 2) :=
      ReachT.step "ε" (rA _ ((mem_collect_iff _ _).mpr (Or.inr hA.accept_tgt))) heA
    intro x hx
    rcases (hdec x).mp hx with (hk | hk | rfl | rfl | rfl) | (ht | ht | rfl | rfl | rfl)
    · exact rA x ((mem_collect_iff _ x).mpr (Or.inl hk))
    · exact rB x ((mem_collect_iff _ x).mpr (Or.inl hk))
    · exact ReachT.refl
    · exact rA _ ((mem_collect_iff _ _).mpr (Or.inr hA.accept_tgt))
    · exact rB _ ((mem_collect_iff _ _).mpr (Or.inr hB.accept_tgt))
    · exact rA x ((mem_collect_iff _ x).mpr (Or.inr ht))
    · exact rB x ((mem_collect_iff _ x).mpr (Or.inr ht))
    · exact rAstart
    · exact rBstart
    · exact rt

theorem buildT_inv : ∀ (fuel : Nat) (node : RegexNode) (c : Nat) (A : NFA) (c' : Nat),
    buildT fuel node c = some (A, c') → BuildInv A c c' := by
  intro fuel
  induction fuel with
  | zero => intro node c A c' h; simp [buildT] at h
  | succ fuel ih =>
    intro node c A c' h
    obtain ⟨v, l, r⟩ := node
    rw [buildT.eq_def] at h
    dsimp only at h
    rcases l with _ | ln <;> rcases r with _ | rn <;> dsimp only at h
    · simp only [Option.some.injEq, Prod.mk.injEq] at h
      obtain ⟨hA, hc⟩ := h
      subst hA
      subst hc
      exact leaf_inv (litSymbol v) c
    · repeat' split at h
      all_goals exact Option.noConfusion h
    · split at h
      · exact Option.noConfusion h
      · split at h
        · exact Option.noConfusion h
        · split at h
          · match hA1 : buildT fuel ln c with
            | none => rw [hA1] at h; exact Option.noConfusion h
            | some (A1, c1) =>
              rw [hA1] at h
              dsimp only at h
              simp only [Option.some.injEq, Prod.mk.injEq] at h
              obtain ⟨hA, hc⟩ := h
              subst hA
              subst hc
              exact star_inv A1 c c1 (ih ln c A1 c1 hA1)
          · split at h
            · match hA1 : buildT fuel ln c with
              | none => rw [hA1] at h; exact Option.noConfusion h
              | some (A1, c1) =>
                rw [hA1] at h
                dsimp only at h
                have h1 := ih ln c A1 c1 hA1
                have h2 := ih _ _ _ _ h
                exact BuildInv.weaken (Nat.le_of_lt h1.lt) h2
            · split at h
              · match hA1 : buildT fuel ln c with
                | none => rw [hA1] at h; exact Option.noConfusion h
                | some (A1, c1) =>
                  rw [hA1] at h
                  dsimp only at h
                  simp only [Option.some.injEq, Prod.mk.injEq] at h
                  obtain ⟨hA, hc⟩ := h
                  subst hA
                  subst hc
                  exact opt_inv A1 c c1 (ih ln c A1 c1 hA1)
              · exact Option.noConfusion h
    · split at h
      · match hA1 : buildT fuel ln c with
        | none => rw [hA1] at h; exact Option.noConfusion h
        | some (A1, c1) =>
          rw [hA1] at h
          dsimp only at h
          match hB1 : buildT fuel rn c1 with
          | none => rw [hB1] at h; exact Option.noConfusion h
          | some (B1, c2) =>
            rw [hB1] at h
            dsimp only at h
            simp only [Option.some.injEq, Prod.mk.injEq] at h
            obtain ⟨hA, hc⟩ := h
            subst hA
            subst hc
            exact concat_inv A1 B1 c c1 c2 (ih ln c A1 c1 hA1) (ih rn c1 B1 c2 hB1)
      · split at h
        · match hA1 : buildT fuel ln c with
          | none => rw [hA1] at h; exact Option.noConfusion h
          | some (A1, c1) =>
            rw [hA1] at h
            dsimp only at h
            match hB1 : buildT fuel rn c1 with
            | none => rw [hB1] at h; exact Option.noConfusion h
            | some (B1, c2) =>
              rw [hB1] at h
              dsimp only at h
              simp only [Option.some.injEq, Prod.mk.injEq] at h
              obtain ⟨hA, hc⟩ := h
              subst hA
              subst hc
              exact alt_inv A1 B1 c c1 c2 (ih ln c A1 c1 hA1) (ih rn c1 B1 c2 hB1)
        · split at h
          · match hA1 : buildT fuel ln c with
            | none => rw [hA1] at h; exact Option.noConfusion h
            | some (A1, c1) =>
              rw [hA1] at h
              dsimp only at h
              simp only [Option.some.injEq, Prod.mk.injEq] at h
              obtain ⟨hA, hc⟩ := h
              subst hA
              subst hc
              exact star_inv A1 c c1 (ih ln c A1 c1 hA1)
          · split at h
            · match hA1 : buildT fuel ln c with
              | none => rw [hA1] at h; exact Option.noConfusion h
              | some (A1, c1) =>
                rw [hA1] at h
                dsimp only at h
                have h1 := ih ln c A1 c1 hA1
                have h2 := ih _ _ _ _ h
                exact BuildInv.weaken (Nat.le_of_lt h1.lt) h2
            · split at h
              · match hA1 : buildT fuel ln c with
                | none => rw [hA1] at h; exact Option.noConfusion h
                | some (A1, c1) =>
                  rw [hA1] at h
                  dsimp only at h
                  simp only [Option.some.injEq, Prod.mk.injEq] at h
                  obtain ⟨hA, hc⟩ := h
                  subst hA
                  subst hc
                  exact opt_inv A1 c c1 (ih ln c A1 c1 hA1)
              · exact Option.noConfusion h

theorem validate_nfa_of_buildInv (nfa : NFA) (c c' : Nat) (inv : BuildInv nfa c c') :
    validate_nfa nfa = [] := by
  have hstart_states : nfa.start ∈ collectStatesL nfa.transitions :=
    (mem_collect_iff _ _).mpr (Or.inl inv.start_key)
  have haccept_states : nfa.accept ∈ collectStatesL nfa.transitions :=
    (mem_collect_iff _ _).mpr (Or.inr inv.accept_tgt)
  have hindeg : (triplesOf nfa.transitions).countP
      (fun tr => tr.2.2 == nfa.start) = 0 := by
    rw [List.countP_eq_zero]
    intro tr htr
    simp only [beq_iff_eq]
    intro hc2
    exact inv.start_no_in (hc2 ▸ triple_target_mem _ tr htr)
  have houtdeg : lookupD nfa.transitions nfa.accept = [] :=
    lookupD_not_key _ _ inv.accept_no_out
  have hsucc : ∀ a : Nat, ∀ b ∈ (fun s => (lookupD nfa.transitions s).map Prod.snd) a,
      b ∈ nfa.start :: allTargets nfa.transitions := by
    intro a b hb
    obtain ⟨e, he, hbe⟩ := List.mem_map.mp hb
    exact List.mem_cons_of_mem _ (hbe ▸ lookupD_targets _ _ _ he)
  have hfuel : 2 * (((nfa.start :: allTargets nfa.transitions).toFinset \
      ([nfa.start] : List Nat).toFinset).card) + ([nfa.start] : List Nat).length ≤
      2 * (allTargets nfa.transitions).length + 1 := by
    have hsub : (nfa.start :: allTargets nfa.transitions).toFinset \
        ([nfa.start] : List Nat).toFinset ⊆ (allTargets nfa.transitions).toFinset := by
      intro x hx
      rw [Finset.mem_sdiff] at hx
      obtain ⟨hx1, hx2⟩ := hx
      simp only [List.toFinset_cons, Finset.mem_insert] at hx1
      rcases hx1 with rfl | hx1
      · exact absurd (by simp) hx2
      · exact hx1
    have h1 := Finset.card_le_card hsub
    have h2 := (allTargets nfa.transitions).toFinset_card_le
    simp only [List.length_singleton]
    omega
  obtain ⟨horder, hnodup, hmono, hclosed⟩ := reachLoop_spec
    (fun s => (lookupD nfa.transitions s).map Prod.snd)
    (nfa.start :: allTargets nfa.transitions) hsucc
    (2 * (allTargets nfa.transitions).length + 1) [nfa.start] [nfa.start] []
    rfl (by simp) hfuel
  have hcl := hclosed (fun x hx => Or.inl hx)
  have hstart_seen : nfa.start ∈ (reachLoop
      (fun s => (lookupD nfa.transitions s).map Prod.snd)
      (2 * (allTargets nfa.transitions).length + 1) [nfa.start] [nfa.start] []).2 :=
    hmono nfa.start (List.mem_singleton.mpr rfl)
  have hreach_seen : ∀ x, ReachT nfa.transitions nfa.start x →
      x ∈ (reachLoop (fun s => (lookupD nfa.transitions s).map Prod.snd)
        (2 * (allTargets nfa.transitions).length + 1) [nfa.start] [nfa.start] []).2 := by
    intro x hx
    induction hx with
    | refl => exact hstart_seen
    | step sym hr he ihx =>
      exact hcl _ ihx _ (List.mem_map_of_mem Prod.snd he)
  have hall_seen : ∀ s ∈ collectStatesL nfa.transitions,
      s ∈ (reachLoop (fun s => (lookupD nfa.transitions s).map Prod.snd)
        (2 * (allTargets nfa.transitions).length + 1) [nfa.start] [nfa.start] []).2 :=
    fun s hs => hreach_seen s (inv.reach s hs)
  unfold validate_nfa
  dsimp only
  rw [if_neg (not_not_intro hstart_states), if_neg (not_not_intro haccept_states),
    if_neg (fun hne => hne hindeg),
    if_neg (fun hne : (lookupD nfa.transitions nfa.accept).length ≠ 0 =>
      hne (by rw [houtdeg]; rfl)),
    if_neg (fun hne : _ ≠ [] => hne (List.filter_eq_nil_iff.mpr
      (fun s hs => by simpa using hall_seen s hs))),
    if_neg (not_not_intro (hreach_seen nfa.accept
      (inv.reach nfa.accept haccept_states)))]
  rfl

/-- C10: every NFA that `thompson_from_ast` actually returns passes all the
structural checks of `validate_nfa`: start and accept occur in the transition
structure, the start has in-degree 0, the accept has out-degree 0, and every
mentioned state (the accept included) is reachable from the start, so the
issue list is empty. -/
theorem c10_thompson_validates (root : RegexNode) (nfa : NFA)
    (h : thompson_from_ast root = some nfa) : validate_nfa nfa = [] := by
  unfold thompson_from_ast at h
  match hb : buildT (sizeRN root) root 0 with
  | none => rw [hb] at h; exact Option.noConfusion h
  | some (A, c') =>
    rw [hb] at h
    simp only [Option.map_some'] at h
    injection h with h1
    subst h1
    exact validate_nfa_of_buildInv A 0 c' (buildT_inv _ root 0 A c' hb)

/-- Witness for C10 on the leaf tree `a`: Thompson yields the two-state NFA
`1 --a--> 2`, and `validate_nfa` reports no issues on it. -/
theorem c10_witness : validate_nfa ⟨1, 2, [(1, [("a", 2)])]⟩ = [] :=
  c10_thompson_validates (RegexNode.mk "a" none none) _ (by decide)

end Proyecto
